import Mathlib

/-!
Verification development for the TCG repository (two C++ headers):
src/project2/agent.h (tuple-network TD agent for a Threes!-like tile game) and
src/project3/pj-3-code-v1/agent.h (MCTS player for a NoGo-like placement game).

The board/rules engines (board.h), the action representation (action.h) and the
weight container (weight.h) are external collaborators of the repository and are
not part of its sources; following the spec's external-interface contract they
are abstracted here:
 - a tile-game board is an opaque type B with a cell accessor
   (cell : B -> Nat -> Nat, the read-only accessor board::operator()) and a
   slide operation (slide : B -> Nat -> B x Int) returning the resulting board
   and the reward, with reward -1 the illegal-move sentinel;
 - a placement-game board is an opaque type B with
   applyMove : Nat -> Piece -> B -> Option B, where none models
   action::place(pos, who).apply(b) != board::legal and some b2 models a legal
   placement producing b2;
 - action::slide(op) is modelled by the integer op itself, with -1 (the value
   the code passes when no move was chosen) standing for the null action;
   action::place moves are modelled by their position index.

C++ float/double arithmetic is modelled exactly over the rationals (for the
tuple network) and over the reals (for the UCB1 score, which uses sqrt/log).
std::shuffle calls are modelled by explicit permutation parameters.
-/

namespace TCG

namespace TupleNet

/-- One episode entry of tuple_player: struct state { board after; int reward; }
(src/project2/agent.h, lines 138-141). -/
structure St (B : Type) where
  after : B
  reward : ℤ

instance {B : Type} [Inhabited B] : Inhabited (St B) := ⟨⟨default, 0⟩⟩

/-- The weight tables: net[j][index].  In the code net is a vector of flat
float arrays; the sample configuration has 8 tables of size 16^6, addressed
as net[i/8][feature] for i in [0,64).  Modelled as a total function from
(table, index) to an exact rational weight. -/
abbrev Net : Type := ℕ → ℕ → ℚ

/-- The 64 fixed patterns, transcribed from int network_index[64][6]
(src/project2/agent.h, lines 287-359).  Row 26 of the C++ array has only five
initializers ({5,8,9,10,15}); C++ aggregate initialization zero-fills the
sixth element, so that row is [5, 8, 9, 10, 15, 0] here. -/
def network_index : List (List ℕ) :=
  [[0,1,2,4,5,6],
   [2,3,6,7,10,11],
   [9,10,11,13,14,15],
   [4,5,8,9,12,13],
   [8,9,10,12,13,14],
   [0,1,4,5,8,9],
   [1,2,3,5,6,7],
   [6,7,10,11,14,15],

   [1,2,5,6,9,13],
   [4,5,6,7,10,11],
   [2,6,10,14,13,9],
   [4,5,8,9,10,11],
   [1,2,5,6,10,14],
   [6,7,8,9,10,11],
   [1,5,9,10,13,14],
   [4,5,6,7,8,9],

   [0,1,2,3,4,5],
   [2,6,3,7,11,15],
   [12,13,14,15,10,11],
   [0,4,8,12,9,13],
   [8,9,12,13,14,15],
   [0,1,4,5,8,12],
   [0,1,2,3,6,7],
   [3,7,10,11,14,15],

   [0,1,6,7,8,11],
   [3,7,6,9,10,14],
   [5,8,9,10,15,0],
   [1,5,6,8,9,12],
   [6,9,10,11,12,13],
   [0,4,5,9,10,13],
   [2,3,4,5,6,9],
   [2,5,6,10,11,15],

   [0,1,2,5,9,10],
   [3,5,6,7,9,11],
   [5,6,10,13,14,15],
   [4,6,8,9,10,12],
   [5,6,9,12,13,14],
   [0,4,5,6,8,10],
   [1,2,3,6,9,10],
   [5,7,9,10,11,15],

   [0,1,5,9,13,14],
   [3,4,5,6,7,8],
   [1,2,6,10,14,15],
   [7,8,9,10,11,12],
   [1,2,5,9,12,13],
   [0,4,5,6,7,11],
   [2,3,6,10,13,14],
   [4,8,9,10,11,15],

   [0,1,5,8,9,13],
   [1,3,4,5,6,7],
   [2,6,7,10,14,15],
   [8,9,10,11,12,14],
   [1,4,5,9,12,13],
   [0,2,4,5,6,7],
   [2,3,6,10,11,14],
   [8,9,10,11,13,15],

   [0,1,2,4,6,10],
   [2,3,7,9,10,11],
   [5,9,11,13,14,15],
   [4,5,6,8,12,13],
   [2,6,8,10,12,14],
   [0,1,4,8,9,10],
   [1,2,3,5,7,9],
   [5,6,7,11,14,15]]

/-- tuple_player::evaluate_feature (src/project2/agent.h, lines 175-178):
treats the six cells named by one pattern row as base-16 digits, most
significant first.  after(i) is the external cell accessor, here cell. -/
def evaluate_feature {B : Type} (cell : B → ℕ → ℕ) (after : B) (row : List ℕ) : ℕ :=
  cell after (row.getD 0 0) * (16*16*16*16*16) + cell after (row.getD 1 0) * (16*16*16*16) +
  cell after (row.getD 2 0) * (16*16*16) + cell after (row.getD 3 0) * (16*16) +
  cell after (row.getD 4 0) * 16 + cell after (row.getD 5 0)

/-- tuple_player::evaluate_score (src/project2/agent.h, lines 180-188):
score = sum over i in [0,64) of net[i/8][evaluate_feature(after, network_index[i])]. -/
def evaluate_score {B : Type} (cell : B → ℕ → ℕ) (net : Net) (after : B) : ℚ :=
  ((List.range 64).map
    (fun i => net (i / 8) (evaluate_feature cell after (network_index.getD i [])))).sum

/-- One weight-table increment of tuple_player::train_weights:
net[i/8][evaluate_feature(after, network_index[i])] += adjust_value, as a
pointwise function update (phi i is the feature index of pattern i). -/
def bump_tables (adjust_value : ℚ) (phi : ℕ → ℕ) (w : Net) (i : ℕ) : Net :=
  fun j x => if j = i / 8 ∧ x = phi i then w j x + adjust_value else w j x

/-- tuple_player::train_weights (src/project2/agent.h, lines 190-197):
err = target - evaluate_score(after); adjust_value = err * alpha; then for
each i in [0,64) add adjust_value to net[i/8][evaluate_feature(...)]. -/
def train_weights {B : Type} (cell : B → ℕ → ℕ) (alpha : ℚ) (net : Net) (after : B)
    (target : ℚ) : Net :=
  let temp := evaluate_score cell net after
  let err := target - temp
  let adjust_value := err * alpha
  (List.range 64).foldl
    (bump_tables adjust_value (fun i => evaluate_feature cell after (network_index.getD i []))) net

/-- The best-candidate accumulator of tuple_player::take_action
(src/project2/agent.h, lines 145-148): int best_reward = -1;
float best_value = -9999999; board after; int best_op = -1. -/
structure TAState (B : Type) where
  best_reward : ℤ
  best_value : ℚ
  after : B
  best_op : ℤ

/-- One iteration of the move loop in tuple_player::take_action
(src/project2/agent.h, lines 149-163): slide a private copy of the board,
skip reward -1, otherwise keep the candidate if
f_reward + value > best_reward + best_value (strict, so ties keep the
earlier move). -/
def ta_step {B : Type} (cell : B → ℕ → ℕ) (slide : B → ℕ → B × ℤ) (net : Net) (before : B)
    (s : TAState B) (f_op : ℕ) : TAState B :=
  let temp := before
  let res := slide temp f_op
  if res.2 = -1 then s
  else
    let value := evaluate_score cell net res.1
    if (res.2 : ℚ) + value > (s.best_reward : ℚ) + s.best_value then
      ⟨res.2, value, res.1, (f_op : ℤ)⟩
    else s

/-- The quantity f_reward + value that the move loop of
tuple_player::take_action compares (src/project2/agent.h, line 157): the
slide reward of op plus the evaluation of the resulting board. -/
def move_sum {B : Type} (cell : B → ℕ → ℕ) (slide : B → ℕ → B × ℤ) (net : Net)
    (before : B) (op : ℕ) : ℚ :=
  ((slide before op).2 : ℚ) + evaluate_score cell net (slide before op).1

/-- tuple_player::take_action (src/project2/agent.h, lines 143-172): try the
four slide directions in order 0,1,2,3; if a move was chosen
(best_op != -1) push {after, best_reward} onto the episode; return
action::slide(best_op) (op -1 = no move chosen, the null action). -/
def take_action {B : Type} [Inhabited B] (cell : B → ℕ → ℕ) (slide : B → ℕ → B × ℤ)
    (net : Net) (episode : List (St B)) (before : B) : TAState B × List (St B) :=
  let s := [0, 1, 2, 3].foldl (ta_step cell slide net before) ⟨-1, -9999999, default, -1⟩
  (s, if s.best_op ≠ -1 then episode ++ [⟨s.after, s.best_reward⟩] else episode)

/-- The body of the backward loop in tuple_player::close_episode
(src/project2/agent.h, line 244): train_weights(episode[i].after,
episode[i+1].reward + evaluate_score(episode[i+1].after)), where
evaluate_score reads the network as already updated by the later steps of
the same sweep. -/
def close_step {B : Type} [Inhabited B] (cell : B → ℕ → ℕ) (alpha : ℚ)
    (episode : List (St B)) (w : Net) (i : ℕ) : Net :=
  train_weights cell alpha w (episode.getD i default).after
    (((episode.getD (i + 1) default).reward : ℚ) +
      evaluate_score cell w (episode.getD (i + 1) default).after)

/-- tuple_player::close_episode (src/project2/agent.h, lines 238-246): do
nothing on an empty episode; otherwise train the last afterstate toward 0 and
then run i = n-2, n-3, ..., 0 of the backward loop (the reversed List.range
models the descending C++ for loop, which is entered only when n >= 2). -/
def close_episode {B : Type} [Inhabited B] (cell : B → ℕ → ℕ) (alpha : ℚ) (net : Net)
    (episode : List (St B)) : Net :=
  if episode.isEmpty then net
  else
    let net1 := train_weights cell alpha net
      (episode.getD (episode.length - 1) default).after 0
    ((List.range (episode.length - 1)).reverse).foldl (close_step cell alpha episode) net1

/-- The backward TD sweep as the spec states it (spec.md section 4.3), by
structural recursion on the episode: train the last afterstate toward 0, and
each earlier afterstate toward reward of the next step plus the evaluation of
the next afterstate under the network as updated by the later steps.  Used
only to compare with close_episode. -/
def sweep_of_spec {B : Type} (cell : B → ℕ → ℕ) (alpha : ℚ) (net : Net) :
    List (St B) → Net
  | [] => net
  | [s] => train_weights cell alpha net s.after 0
  | s :: s' :: rest =>
      let w := sweep_of_spec cell alpha net (s' :: rest)
      train_weights cell alpha w s.after ((s'.reward : ℚ) + evaluate_score cell w s'.after)

end TupleNet

namespace MCTS

/-- board::piece_type of the NoGo framework (external board.h): empty, black,
white are the values the agent code uses. -/
inductive Piece : Type where
  | black : Piece
  | white : Piece
  | empty : Piece
deriving DecidableEq

/-- mcts_player::my_opponent (src/project3/pj-3-code-v1/agent.h, lines
140-147): white for black, black for anything else. -/
def my_opponent (myself : Piece) : Piece :=
  if myself = Piece.black then Piece.white else Piece.black

/-- mcts_player::node (src/project3/pj-3-code-v1/agent.h, lines 149-165):
win counter wi, visit counter si (both int, initialized to 0), leaf and
terminal flags, board snapshot, the piece type self of the player whose move
produced this node, and the owned children.  The non-owning parent pointer is
represented implicitly: tree functions below address a node by its index path
from the root, and the parent-visit count is passed to best_child explicitly. -/
inductive Node (B : Type) : Type where
  | mk (wi si : ℤ) (isleaf is_terminal : Bool) (state : B) (self : Piece)
      (move_placed : ℕ) (childrens : List (Node B))

def Node.wi {B : Type} : Node B → ℤ
  | .mk wi _ _ _ _ _ _ _ => wi

def Node.si {B : Type} : Node B → ℤ
  | .mk _ si _ _ _ _ _ _ => si

def Node.isleaf {B : Type} : Node B → Bool
  | .mk _ _ isleaf _ _ _ _ _ => isleaf

def Node.is_terminal {B : Type} : Node B → Bool
  | .mk _ _ _ is_terminal _ _ _ _ => is_terminal

def Node.state {B : Type} : Node B → B
  | .mk _ _ _ _ state _ _ _ => state

def Node.self {B : Type} : Node B → Piece
  | .mk _ _ _ _ _ self _ _ => self

def Node.move_placed {B : Type} : Node B → ℕ
  | .mk _ _ _ _ _ _ move_placed _ => move_placed

def Node.childrens {B : Type} : Node B → List (Node B)
  | .mk _ _ _ _ _ _ _ childrens => childrens

instance {B : Type} [Inhabited B] : Inhabited (Node B) :=
  ⟨Node.mk 0 0 true false default Piece.empty 0 []⟩

/-- The per-node effect of one backpropogation visit
(src/project3/pj-3-code-v1/agent.h, lines 305-306):
current->wi += score; current->si++. -/
def Node.bump {B : Type} (score : ℤ) : Node B → Node B
  | .mk wi si l t st se mv ch => .mk (wi + score) (si + 1) l t st se mv ch

/-- current->is_terminal = true (expand, line 238). -/
def Node.mark_terminal {B : Type} : Node B → Node B
  | .mk wi si l _ st se mv ch => .mk wi si l true st se mv ch

/-- Install freshly expanded children and clear the leaf flag
(expand, lines 242-243). -/
def Node.set_expanded {B : Type} (newch : List (Node B)) : Node B → Node B
  | .mk wi si _ t st se mv _ => .mk wi si false t st se mv newch

/-- Replace the children list, all other fields unchanged (used to model an
in-place update of one child through the owning pointer). -/
def Node.replace_childrens {B : Type} : Node B → List (Node B) → Node B
  | .mk wi si l t st se mv _, ch => .mk wi si l t st se mv ch

/-- mcts_player::best_child (src/project3/pj-3-code-v1/agent.h, lines
167-184): a child with zero visits scores the sentinel 1000000; otherwise the
UCB1 score is wi/si + c*sqrt(ln(parent->si)/si) when who == child->self, and
(1 - wi/si) + c*sqrt(ln(parent->si)/si) otherwise.  parent_si stands for
child->parent->si. -/
noncomputable def best_child {B : Type} (who : Piece) (exploration_c : ℝ) (parent_si : ℤ)
    (child : Node B) : ℝ :=
  if who = child.self then
    if child.si = 0 then 1000000
    else (child.wi : ℝ) / (child.si : ℝ) +
      exploration_c * Real.sqrt (Real.log (parent_si : ℝ) / (child.si : ℝ))
  else
    if child.si = 0 then 1000000
    else (1 - (child.wi : ℝ) / (child.si : ℝ)) +
      exploration_c * Real.sqrt (Real.log (parent_si : ℝ) / (child.si : ℝ))

/-- The inner loop of mcts_player::selection (src/project3/pj-3-code-v1/
agent.h, lines 188-195): scan the children with float best = 0,
int best_index = 0, replacing the best index only on a strictly larger
best_child score.  The accumulator is (best, best_index, running index). -/
noncomputable def select_step {B : Type} (who : Piece) (exploration_c : ℝ) (parent_si : ℤ)
    (acc : ℝ × ℕ × ℕ) (ch : Node B) : ℝ × ℕ × ℕ :=
  if acc.1 < best_child who exploration_c parent_si ch then
    (best_child who exploration_c parent_si ch, acc.2.2, acc.2.2 + 1)
  else (acc.1, acc.2.1, acc.2.2 + 1)

noncomputable def select_index {B : Type} (who : Piece) (exploration_c : ℝ) (parent_si : ℤ)
    (childrens : List (Node B)) : ℕ :=
  (childrens.foldl (select_step who exploration_c parent_si) (0, 0, 0)).2.1

/-- mcts_player::selection (src/project3/pj-3-code-v1/agent.h, lines
186-200) as the index path it descends: while the current node is not a
leaf, move to the child chosen by select_index.  The code indexes
childrens[best_index] directly; the impossible out-of-range read (children
of a non-leaf are never empty) ends the path here. -/
noncomputable def selection_path {B : Type} (who : Piece) (exploration_c : ℝ) :
    Node B → List ℕ
  | Node.mk _wi si isleaf _is_terminal _state _self _move_placed childrens =>
    if isleaf then []
    else
      match h : childrens.get? (select_index who exploration_c si childrens) with
      | some ch => select_index who exploration_c si childrens ::
          selection_path who exploration_c ch
      | none => []
termination_by n => sizeOf n
decreasing_by
  have h1 := List.sizeOf_lt_of_mem (List.get?_mem h)
  simp only [Node.mk.sizeOf_spec]
  omega

/-- mcts_player::expand (src/project3/pj-3-code-v1/agent.h, lines 202-247):
a terminal leaf is returned unchanged; otherwise one child is created per
legal placement of op = my_opponent(self) (both C++ branches construct
action::place(i, op) for i in [0, board size), so they are a single loop
here); with no legal child the leaf is marked terminal, else the children
are shuffled, the leaf flag cleared, and the front child is descended into.
The returned Bool records whether the front child (index 0 after the
shuffle) was returned (true) or the node itself (false). -/
def expand {B : Type} (applyMove : ℕ → Piece → B → Option B) (boardSize : ℕ)
    (shuffle : List (Node B) → List (Node B)) (current : Node B) : Node B × Bool :=
  if current.is_terminal then (current, false)
  else
    let op := my_opponent current.self
    let kids := (List.range boardSize).filterMap (fun i =>
      match applyMove i op current.state with
      | some temp => some (Node.mk 0 0 true false temp op i [])
      | none => none)
    if kids.isEmpty then (current.mark_terminal, false)
    else (current.set_expanded (shuffle kids), true)

/-- The inner scan of mcts_player::rollout (src/project3/pj-3-code-v1/
agent.h, lines 279-286): apply the first legal placement of piece p found in
the given position order, or report that p has no legal move. -/
def scan_first_legal {B : Type} (applyMove : ℕ → Piece → B → Option B) :
    List ℕ → Piece → B → Option B
  | [], _, _ => none
  | i :: rest, p, b =>
    match applyMove i p b with
    | some t => some t
    | none => scan_first_legal applyMove rest p b

/-- The while(1) loop of mcts_player::rollout (src/project3/pj-3-code-v1/
agent.h, lines 268-298): myop is the side to move; it scans its (already
shuffled) move list, applies the first legal move and hands the turn to the
other side; when it cannot move, the rollout scores 0 if the agent's side who
was the one unable to move, else 1.  The C++ loop has no fuel; the fuel
argument makes the model total, with none = fuel exhausted (the termination
theorem shows enough fuel always exists). -/
def rollout_loop {B : Type} (applyMove : ℕ → Piece → B → Option B) (who opponent : Piece)
    (my_space op_space : List ℕ) : ℕ → Piece → B → Option ℤ
  | 0, _, _ => none
  | fuel + 1, myop, temp =>
    let current_space := if myop = who then my_space else op_space
    let next := if myop = who then opponent else who
    match scan_first_legal applyMove current_space myop temp with
    | some temp2 => rollout_loop applyMove who opponent my_space op_space fuel next temp2
    | none => some (if myop = who then 0 else 1)

/-- mcts_player::rollout (src/project3/pj-3-code-v1/agent.h, lines 249-301):
an already terminal node resolves immediately to (who != myop) where
myop = my_opponent(self) is the side to move; otherwise the alternating
play-out loop runs from the node's board. -/
def rollout {B : Type} (applyMove : ℕ → Piece → B → Option B) (who opponent : Piece)
    (my_space op_space : List ℕ) (fuel : ℕ) (current : Node B) : Option ℤ :=
  let myop := my_opponent current.self
  if current.is_terminal then some (if who ≠ myop then 1 else 0)
  else rollout_loop applyMove who opponent my_space op_space fuel myop current.state

/-- mcts_player::backpropogation (src/project3/pj-3-code-v1/agent.h, lines
303-310): the code walks parent pointers from the leaf to the root doing
wi += score; si++ at every node; here the same chain is walked top-down along
the leaf's index path, bumping every node on it. -/
def backpropogation {B : Type} (score : ℤ) : List ℕ → Node B → Node B
  | [], n => n.bump score
  | i :: p, n =>
    match n.childrens.get? i with
    | some c => (n.replace_childrens (n.childrens.set i (backpropogation score p c))).bump score
    | none => n.bump score

/-- The node addressed by an index path (none if the path leaves the tree). -/
def node_at {B : Type} : List ℕ → Node B → Option (Node B)
  | [], n => some n
  | i :: p, n =>
    match n.childrens.get? i with
    | some c => node_at p c
    | none => none

/-- The (wi, si) counters of the nodes on the chain from the root to the node
addressed by the path: the parent chain a backpropogation call walks. -/
def counters_along {B : Type} : List ℕ → Node B → List (ℤ × ℤ)
  | [], n => [(n.wi, n.si)]
  | i :: p, n =>
    (n.wi, n.si) ::
      (match n.childrens.get? i with
       | some c => counters_along p c
       | none => [])

/-- Replace the node addressed by the path (an in-place mutation through a
pointer in the C++ code). -/
def replace_at {B : Type} (e : Node B) : List ℕ → Node B → Node B
  | [], _ => e
  | i :: p, n =>
    match n.childrens.get? i with
    | some c => n.replace_childrens (n.childrens.set i (replace_at e p c))
    | none => n

/-- The (wi, si) counters a single node accumulates from the backpropogation
visits it receives: each visit does wi += score; si++ on counters that start
at the field initializers wi = 0, si = 0 (node struct, lines 152-153). -/
def counter_updates (scores : List ℤ) : ℤ × ℤ :=
  scores.foldl (fun ws s => (ws.1 + s, ws.2 + 1)) (0, 0)

/-- One iteration of the search loop in mcts_player::take_action
(src/project3/pj-3-code-v1/agent.h, lines 332-346): selection from the root,
expansion of the selected leaf (an in-place update of the tree), rollout from
the node expand returned (the front child when children were created, the
leaf itself otherwise), and backpropogation of the rollout score along the
parent chain.  Rollout fuel empties(state) + 1 is always sufficient (see the
rollout termination theorem); a fuel miss scores getD 0. -/
noncomputable def search_step {B : Type} (applyMove : ℕ → Piece → B → Option B)
    (boardSize : ℕ) (shuffle : List (Node B) → List (Node B)) (empties : B → ℕ)
    (who opponent : Piece) (exploration_c : ℝ) (my_space op_space : List ℕ)
    (t : Node B) : Node B :=
  let p := selection_path who exploration_c t
  match node_at p t with
  | none => t
  | some best_leaf =>
    let ed := expand applyMove boardSize shuffle best_leaf
    let t1 := replace_at ed.1 p t
    let p2 := if ed.2 then p ++ [0] else p
    match node_at p2 t1 with
    | none => t1
    | some new_leaf =>
      let score := (rollout applyMove who opponent my_space op_space
        (empties new_leaf.state + 1) new_leaf).getD 0
      backpropogation score p2 t1

/-- The final scan of mcts_player::take_action (src/project3/pj-3-code-v1/
agent.h, lines 348-355): best_move starts as the null action (none) and
bestcount as -1; each root child with si > bestcount replaces both, so the
first child with the maximal visit count wins. -/
def choose_move {B : Type} (childrens : List (Node B)) : Option ℕ :=
  (childrens.foldl
    (fun (acc : ℤ × Option ℕ) ch =>
      if ch.si > acc.1 then (ch.si, some ch.move_placed) else acc)
    (-1, none)).2

/-- mcts_player::take_action (src/project3/pj-3-code-v1/agent.h, lines
320-360): build a root holding the current board with self = opponent (so
the agent who is to act below it), run the search loop, then return the
move of the most-visited root child.  The wall-clock budget (checked every
500 iterations against ~1 second) only determines how many iterations run;
it is modelled by the iteration count. -/
noncomputable def mcts_take_action {B : Type} (applyMove : ℕ → Piece → B → Option B)
    (boardSize : ℕ) (shuffle : List (Node B) → List (Node B)) (empties : B → ℕ)
    (who opponent : Piece) (exploration_c : ℝ) (my_space op_space : List ℕ)
    (iterations : ℕ) (state : B) : Option ℕ :=
  let root : Node B := Node.mk 0 0 true false state opponent 0 []
  let final := (search_step applyMove boardSize shuffle empties who opponent
    exploration_c my_space op_space)^[iterations] root
  choose_move final.childrens

/-- All nodes of a tree satisfy P (the node and, recursively, its children). -/
inductive all_nodes {B : Type} (P : Node B → Prop) : Node B → Prop where
  | intro (n : Node B) (hn : P n) (hch : ∀ c ∈ n.childrens, all_nodes P c) : all_nodes P n

end MCTS

/-! ## Theorems -/

open TupleNet MCTS

/-- Base-16 positional digits: extracting digit k of a six-digit base-16
numeral recovers the digit. -/
theorem base16_digits (a b c d e f : ℕ) (ha : a < 16) (hb : b < 16) (hc : c < 16)
    (hd : d < 16) (he : e < 16) (hf : f < 16) :
    (a * (16*16*16*16*16) + b * (16*16*16*16) + c * (16*16*16) + d * (16*16) + e * 16 + f)
        / 16 ^ 5 % 16 = a ∧
    (a * (16*16*16*16*16) + b * (16*16*16*16) + c * (16*16*16) + d * (16*16) + e * 16 + f)
        / 16 ^ 4 % 16 = b ∧
    (a * (16*16*16*16*16) + b * (16*16*16*16) + c * (16*16*16) + d * (16*16) + e * 16 + f)
        / 16 ^ 3 % 16 = c ∧
    (a * (16*16*16*16*16) + b * (16*16*16*16) + c * (16*16*16) + d * (16*16) + e * 16 + f)
        / 16 ^ 2 % 16 = d ∧
    (a * (16*16*16*16*16) + b * (16*16*16*16) + c * (16*16*16) + d * (16*16) + e * 16 + f)
        / 16 ^ 1 % 16 = e ∧
    (a * (16*16*16*16*16) + b * (16*16*16*16) + c * (16*16*16) + d * (16*16) + e * 16 + f)
        / 16 ^ 0 % 16 = f := by
  norm_num
  omega

/-- evaluate_score of a constant weight state: 64 table reads of the same
value q sum to 64 * q, whatever the board. -/
theorem evaluate_score_const {B : Type} (cell : B → ℕ → ℕ) (after : B) (q : ℚ) :
    evaluate_score cell (fun _ _ => q) after = 64 * q := by
  rw [evaluate_score, List.map_const', List.sum_replicate, List.length_range, nsmul_eq_mul]
  norm_num

/-- Pointwise characterization of the table-update loop of train_weights:
entry (j, x) grows by adjust_value once for every pattern index i whose
table i/8 is j and whose feature index is x. -/
theorem bump_fold_char (adjust_value : ℚ) (phi : ℕ → ℕ) (l : List ℕ) (net : Net)
    (j x : ℕ) :
    (l.foldl (bump_tables adjust_value phi) net) j x
      = net j x + (l.countP (fun i => decide (j = i / 8 ∧ x = phi i)) : ℚ) * adjust_value := by
  induction l generalizing net with
  | nil => simp
  | cons a l ih =>
    rw [List.foldl_cons, ih, List.countP_cons]
    by_cases h : j = a / 8 ∧ x = phi a
    · have hdec : decide (j = a / 8 ∧ x = phi a) = true := by simp [h]
      rw [hdec]
      simp only [bump_tables, if_pos h]
      push_cast
      ring
    · have hdec : decide (j = a / 8 ∧ x = phi a) = false := by simpa using h
      rw [hdec]
      simp only [bump_tables, if_neg h]
      push_cast
      ring

/-- Each of the 8 weight tables is shared by exactly 8 of the 64 patterns. -/
theorem countP_table (q : ℕ) (hq : q < 8) :
    (List.range 64).countP (fun k => decide (q = k / 8)) = 8 := by
  interval_cases q <;> decide

/-- Effect of one train_weights call on the evaluation of the same board:
the evaluation moves by S * adjust_value where S, the number of
(pattern, pattern) pairs sharing a table and a feature index, is between 64
(all 64 entries distinct) and 512 (all 8 entries of each table collide). -/
theorem evaluate_train_shift {B : Type} (cell : B → ℕ → ℕ) (alpha : ℚ) (net : Net)
    (after : B) (target : ℚ) :
    ∃ S : ℕ, 64 ≤ S ∧ S ≤ 512 ∧
      evaluate_score cell (train_weights cell alpha net after target) after
        = evaluate_score cell net after
          + (S : ℚ) * ((target - evaluate_score cell net after) * alpha) := by
  set phi : ℕ → ℕ := fun i => evaluate_feature cell after (network_index.getD i []) with hphi
  set adjust : ℚ := (target - evaluate_score cell net after) * alpha with hadj
  have htrain : train_weights cell alpha net after target
      = (List.range 64).foldl (bump_tables adjust phi) net := by
    simp only [train_weights, hadj, hphi]
  set m : ℕ → ℕ := fun i =>
    (List.range 64).countP (fun k => decide (i / 8 = k / 8 ∧ phi i = phi k)) with hm
  refine ⟨∑ i in Finset.range 64, m i, ?_, ?_, ?_⟩
  · have h1 : ∀ i ∈ Finset.range 64, 1 ≤ m i := by
      intro i hi
      have : 0 < m i := by
        rw [hm]
        rw [List.countP_pos_iff]
        exact ⟨i, by simpa using Finset.mem_range.1 hi, by simp⟩
      omega
    calc (64 : ℕ) = ∑ _i in Finset.range 64, 1 := by simp
    _ ≤ ∑ i in Finset.range 64, m i := Finset.sum_le_sum h1
  · have h8 : ∀ i ∈ Finset.range 64, m i ≤ 8 := by
      intro i hi
      have hmono : m i ≤ (List.range 64).countP (fun k => decide (i / 8 = k / 8)) := by
        rw [hm]
        refine List.countP_mono_left ?_
        intro a _ ha
        simp only [decide_eq_true_eq] at ha ⊢
        exact ha.1
      have hq : i / 8 < 8 := by
        have := Finset.mem_range.1 hi
        omega
      rw [countP_table (i / 8) hq] at hmono
      exact hmono
    calc ∑ i in Finset.range 64, m i ≤ ∑ _i in Finset.range 64, 8 :=
        Finset.sum_le_sum h8
    _ = 512 := by simp
  · rw [htrain]
    have heach : ∀ i : ℕ,
        ((List.range 64).foldl (bump_tables adjust phi) net) (i / 8) (phi i)
          = net (i / 8) (phi i) + (m i : ℚ) * adjust := by
      intro i
      rw [bump_fold_char]
    show ((List.range 64).map
        (fun i => ((List.range 64).foldl (bump_tables adjust phi) net) (i / 8) (phi i))).sum
      = evaluate_score cell net after + ((∑ i in Finset.range 64, m i : ℕ) : ℚ) * adjust
    have hlist : ((List.range 64).map
        (fun i => ((List.range 64).foldl (bump_tables adjust phi) net) (i / 8) (phi i))).sum
        = ∑ i in Finset.range 64,
            ((List.range 64).foldl (bump_tables adjust phi) net) (i / 8) (phi i) := rfl
    have hold : evaluate_score cell net after
        = ∑ i in Finset.range 64, net (i / 8) (phi i) := rfl
    rw [hlist, hold]
    rw [Finset.sum_congr rfl (fun i _ => heach i)]
    rw [Finset.sum_add_distrib]
    congr 1
    rw [← Finset.sum_mul]
    congr 1
    push_cast
    rfl

/-- C7 (amended): train_weights computes error = target - evaluate_score and
adds adjust_value = error * alpha to the table entry of every one of the 64
configured patterns (an entry shared by several patterns receives one
increment per pattern); a single call strictly reduces
|target - evaluate_score(state)| whenever the learning rate is positive and
small enough that alpha * 512 < 2 (the sample rate 0.1/64 qualifies), unless
the error is already 0.  For an arbitrary positive learning rate the claim
fails, see the counterexample at alpha = 1. -/
theorem c7_train_weights_contraction {B : Type} (cell : B → ℕ → ℕ) (alpha : ℚ)
    (net : Net) (after : B) (target : ℚ) (hpos : 0 < alpha) (hsmall : alpha * 512 < 2)
    (hne : target - evaluate_score cell net after ≠ 0) :
    (∀ j x, train_weights cell alpha net after target j x
      = net j x + ((List.range 64).countP (fun i => decide (j = i / 8 ∧
          x = evaluate_feature cell after (network_index.getD i []))) : ℚ)
        * ((target - evaluate_score cell net after) * alpha)) ∧
    |target - evaluate_score cell (train_weights cell alpha net after target) after|
      < |target - evaluate_score cell net after| := by
  constructor
  · intro j x
    have : train_weights cell alpha net after target
        = (List.range 64).foldl
            (bump_tables ((target - evaluate_score cell net after) * alpha)
              (fun i => evaluate_feature cell after (network_index.getD i []))) net := by
      simp only [train_weights]
    rw [this, bump_fold_char]
  · obtain ⟨S, hS64, hS512, hshift⟩ :=
      evaluate_train_shift cell alpha net after target
    set err : ℚ := target - evaluate_score cell net after with herr
    have hnew : target - evaluate_score cell
        (train_weights cell alpha net after target) after
        = err * (1 - (S : ℚ) * alpha) := by
      rw [hshift, herr]
      ring
    rw [hnew, abs_mul]
    have hSpos : (0 : ℚ) < (S : ℚ) * alpha := by
      apply mul_pos _ hpos
      have : (64 : ℚ) ≤ (S : ℚ) := by exact_mod_cast hS64
      linarith
    have hSlt : (S : ℚ) * alpha < 2 := by
      have hcast : (S : ℚ) ≤ 512 := by exact_mod_cast hS512
      calc (S : ℚ) * alpha ≤ 512 * alpha := by
            apply mul_le_mul_of_nonneg_right hcast (le_of_lt hpos)
      _ < 2 := by linarith [hsmall]
    have habs : |1 - (S : ℚ) * alpha| < 1 := by
      rw [abs_lt]
      constructor <;> linarith
    calc |err| * |1 - (S : ℚ) * alpha| < |err| * 1 := by
          apply mul_lt_mul_of_pos_left habs
          exact abs_pos.2 hne
    _ = |err| := mul_one _

/-- C7 counterexample: at the positive learning rate alpha = 1 one
train_weights call moves the evaluation past the target (by the factor
1 - S * alpha with S >= 64) and |target - evaluate_score| grows instead of
shrinking: the claim's "for a positive learning rate" is refuted. -/
theorem c7_train_weights_counterexample :
    (0 : ℚ) < 1 ∧
    (1 : ℚ) - evaluate_score (fun (_ : Unit) (_ : ℕ) => 0) (fun _ _ => 0) () ≠ 0 ∧
    ¬ (|(1 : ℚ) - evaluate_score (fun (_ : Unit) (_ : ℕ) => 0)
          (train_weights (fun (_ : Unit) (_ : ℕ) => 0) 1 (fun _ _ => 0) () 1) ()|
        < |(1 : ℚ) - evaluate_score (fun (_ : Unit) (_ : ℕ) => 0) (fun _ _ => 0) ()|) := by
  have h0 : evaluate_score (fun (_ : Unit) (_ : ℕ) => 0) (fun _ _ => (0 : ℚ)) () = 0 := by
    rw [evaluate_score_const]; norm_num
  refine ⟨by norm_num, by rw [h0]; norm_num, ?_⟩
  intro hcon
  obtain ⟨S, hS64, _, hshift⟩ :=
    evaluate_train_shift (fun (_ : Unit) (_ : ℕ) => 0) 1 (fun _ _ => (0 : ℚ)) () 1
  rw [hshift, h0] at hcon
  have hcast : (64 : ℚ) ≤ (S : ℚ) := by exact_mod_cast hS64
  have habs1 : |(1 : ℚ) - (0 + (S : ℚ) * ((1 - 0) * 1))| = (S : ℚ) - 1 := by
    rw [show (1 : ℚ) - (0 + (S : ℚ) * ((1 - 0) * 1)) = 1 - (S : ℚ) by ring]
    rw [abs_of_nonpos (by linarith)]
    ring
  rw [habs1] at hcon
  have habs2 : |(1 : ℚ) - 0| = 1 := by norm_num
  rw [habs2] at hcon
  linarith

/-- Witness for C7 at the sample learning rate 0.1/64 = 1/640, the all-zero
weight state, the all-zero board, and target 1: the error shrinks. -/
theorem c7_train_weights_contraction_witness :
    ((0 : ℚ) < 1/640 ∧ (1/640 : ℚ) * 512 < 2 ∧
      (1 : ℚ) - evaluate_score (fun (_ : Unit) (_ : ℕ) => 0) (fun _ _ => 0) () ≠ 0) ∧
    |(1 : ℚ) - evaluate_score (fun (_ : Unit) (_ : ℕ) => 0)
        (train_weights (fun (_ : Unit) (_ : ℕ) => 0) (1/640) (fun _ _ => 0) () 1) ()|
      < |(1 : ℚ) - evaluate_score (fun (_ : Unit) (_ : ℕ) => 0) (fun _ _ => 0) ()| :=
  ⟨⟨by norm_num, by norm_num, by rw [evaluate_score_const]; norm_num⟩,
   (c7_train_weights_contraction (fun (_ : Unit) (_ : ℕ) => 0) (1/640) (fun _ _ => 0) () 1
     (by norm_num) (by norm_num) (by rw [evaluate_score_const]; norm_num)).2⟩

/-- C8: evaluate_feature treats the six cells named by a pattern as base-16
digits, most significant first: when the six cell values are in [0,16) the
index determines them (decoding digit k by dividing by 16^(5-k) mod 16
recovers cell k), the map is injective over those six values, and it is pure:
it depends on nothing but the six cell values the pattern names. -/
theorem c8_feature_index_roundtrip {B : Type} (cell : B → ℕ → ℕ) (row : List ℕ)
    (after1 after2 : B)
    (h1 : ∀ k, k < 6 → cell after1 (row.getD k 0) < 16)
    (h2 : ∀ k, k < 6 → cell after2 (row.getD k 0) < 16) :
    (∀ k, k < 6 → evaluate_feature cell after1 row / 16 ^ (5 - k) % 16
        = cell after1 (row.getD k 0)) ∧
    (evaluate_feature cell after1 row = evaluate_feature cell after2 row →
      ∀ k, k < 6 → cell after1 (row.getD k 0) = cell after2 (row.getD k 0)) ∧
    ((∀ k, k < 6 → cell after1 (row.getD k 0) = cell after2 (row.getD k 0)) →
      evaluate_feature cell after1 row = evaluate_feature cell after2 row) := by
  have b10 := h1 0 (by norm_num); have b11 := h1 1 (by norm_num)
  have b12 := h1 2 (by norm_num); have b13 := h1 3 (by norm_num)
  have b14 := h1 4 (by norm_num); have b15 := h1 5 (by norm_num)
  have b20 := h2 0 (by norm_num); have b21 := h2 1 (by norm_num)
  have b22 := h2 2 (by norm_num); have b23 := h2 3 (by norm_num)
  have b24 := h2 4 (by norm_num); have b25 := h2 5 (by norm_num)
  have d1 := base16_digits _ _ _ _ _ _ b10 b11 b12 b13 b14 b15
  have d2 := base16_digits _ _ _ _ _ _ b20 b21 b22 b23 b24 b25
  have main1 : ∀ k, k < 6 → evaluate_feature cell after1 row / 16 ^ (5 - k) % 16
      = cell after1 (row.getD k 0) := by
    intro k hk
    interval_cases k
    · exact d1.1
    · exact d1.2.1
    · exact d1.2.2.1
    · exact d1.2.2.2.1
    · exact d1.2.2.2.2.1
    · exact d1.2.2.2.2.2
  have main2 : ∀ k, k < 6 → evaluate_feature cell after2 row / 16 ^ (5 - k) % 16
      = cell after2 (row.getD k 0) := by
    intro k hk
    interval_cases k
    · exact d2.1
    · exact d2.2.1
    · exact d2.2.2.1
    · exact d2.2.2.2.1
    · exact d2.2.2.2.2.1
    · exact d2.2.2.2.2.2
  refine ⟨main1, ?_, ?_⟩
  · intro heq k hk
    have t1 := main1 k hk
    have t2 := main2 k hk
    rw [heq] at t1
    omega
  · intro hsame
    have e0 := hsame 0 (by norm_num); have e1 := hsame 1 (by norm_num)
    have e2 := hsame 2 (by norm_num); have e3 := hsame 3 (by norm_num)
    have e4 := hsame 4 (by norm_num); have e5 := hsame 5 (by norm_num)
    simp only [evaluate_feature]
    rw [e0, e1, e2, e3, e4, e5]

/-- Witness for C8 at a concrete board: the all-zero board on the first
pattern row, with all cell values below 16. -/
theorem c8_feature_index_roundtrip_witness :
    (∀ k, k < 6 → (fun (_ : Unit) (_ : ℕ) => 0) () (([0,1,2,4,5,6] : List ℕ).getD k 0) < 16) ∧
    (∀ k, k < 6 → evaluate_feature (fun (_ : Unit) (_ : ℕ) => 0) () [0,1,2,4,5,6] / 16 ^ (5 - k) % 16
        = (fun (_ : Unit) (_ : ℕ) => 0) () (([0,1,2,4,5,6] : List ℕ).getD k 0)) :=
  ⟨by intro k _; norm_num,
   (c8_feature_index_roundtrip (fun (_ : Unit) (_ : ℕ) => 0) [0,1,2,4,5,6] () ()
     (by intro k _; norm_num) (by intro k _; norm_num)).1⟩

/-- C9: on any board whose cells are all in [0,16), every feature index that
evaluate_score and train_weights compute - evaluate_feature over any of the
64 rows of network_index - lies below 16^6, the size of each weight table;
network_index indeed has 64 rows. -/
theorem c9_feature_index_in_range {B : Type} (cell : B → ℕ → ℕ) (after : B)
    (hcells : ∀ i, cell after i < 16) :
    network_index.length = 64 ∧
    ∀ row ∈ network_index, evaluate_feature cell after row < 16 ^ 6 := by
  refine ⟨by decide, ?_⟩
  intro row _
  have b0 := hcells (row.getD 0 0); have b1 := hcells (row.getD 1 0)
  have b2 := hcells (row.getD 2 0); have b3 := hcells (row.getD 3 0)
  have b4 := hcells (row.getD 4 0); have b5 := hcells (row.getD 5 0)
  simp only [evaluate_feature]
  omega

/-- Witness for C9: the all-zero board. -/
theorem c9_feature_index_in_range_witness :
    (∀ i, (fun (_ : Unit) (_ : ℕ) => 0) () i < 16) ∧
    (network_index.length = 64 ∧
      ∀ row ∈ network_index, evaluate_feature (fun (_ : Unit) (_ : ℕ) => 0) () row < 16 ^ 6) :=
  ⟨by intro i; norm_num,
   c9_feature_index_in_range (fun (_ : Unit) (_ : ℕ) => 0) () (by intro i; norm_num)⟩

/-- Index shift for the backward loop: running the loop body of
close_episode over successor indices on s :: rest is running it over the
plain indices on rest. -/
theorem close_step_shift {B : Type} [Inhabited B] (cell : B → ℕ → ℕ) (alpha : ℚ)
    (s : St B) (rest : List (St B)) (w : Net) (l : List ℕ) :
    (l.map Nat.succ).foldl (close_step cell alpha (s :: rest)) w
      = l.foldl (close_step cell alpha rest) w := by
  induction l generalizing w with
  | nil => simp
  | cons a l ih =>
    have hstep : close_step cell alpha (s :: rest) w (Nat.succ a)
        = close_step cell alpha rest w a := by
      simp only [close_step, Nat.succ_eq_add_one, List.getD_cons_succ]
    simp only [List.map_cons, List.foldl_cons]
    rw [hstep, ih]

/-- C3: close_episode is exactly one backward sweep: nothing on an empty
episode, and on a nonempty episode first the last afterstate is trained
toward target 0, then each earlier afterstate s_i (from i = n-2 down to 0)
toward target r_(i+1) + evaluate_score(s_(i+1)) computed against the network
as already updated by the later steps of the same sweep - the structural
sweep_of_spec. -/
theorem c3_close_episode_is_backward_sweep {B : Type} [Inhabited B] (cell : B → ℕ → ℕ)
    (alpha : ℚ) (net : Net) (episode : List (St B)) :
    close_episode cell alpha net episode = sweep_of_spec cell alpha net episode ∧
    close_episode cell alpha net [] = net := by
  refine ⟨?_, by simp [close_episode]⟩
  induction episode with
  | nil => simp [close_episode, sweep_of_spec]
  | cons s rest ih =>
    cases rest with
    | nil => simp [close_episode, sweep_of_spec]
    | cons s' rest' =>
      have hlen : (s :: s' :: rest').length - 1 = rest'.length + 1 := by simp
      have hrev : (List.range (rest'.length + 1)).reverse
          = ((List.range rest'.length).reverse.map Nat.succ) ++ [0] := by
        rw [List.range_succ_eq_map, List.reverse_cons, List.map_reverse]
      rw [show close_episode cell alpha net (s :: s' :: rest')
          = ((List.range ((s :: s' :: rest').length - 1)).reverse).foldl
              (close_step cell alpha (s :: s' :: rest'))
              (train_weights cell alpha net
                ((s :: s' :: rest').getD ((s :: s' :: rest').length - 1) default).after 0)
          from by simp [close_episode]]
      rw [hlen, hrev, List.foldl_append, List.foldl_cons, List.foldl_nil]
      rw [show ((s :: s' :: rest').getD (rest'.length + 1) default)
          = ((s' :: rest').getD rest'.length default) from List.getD_cons_succ]
      rw [close_step_shift]
      have hinner : (List.range rest'.length).reverse.foldl
            (close_step cell alpha (s' :: rest'))
            (train_weights cell alpha net
              ((s' :: rest').getD rest'.length default).after 0)
          = close_episode cell alpha net (s' :: rest') := by
        simp [close_episode]
      rw [hinner, ih]
      simp [close_step, sweep_of_spec, List.getD_cons_succ]

/-- Characterization of the move loop of tuple_player::take_action over any
list of candidate moves: either no candidate strictly beats the incoming
accumulator (which is then returned unchanged), or the result records the
first candidate attaining the maximum of move_sum over the candidates that
strictly beat the incoming accumulator. -/
theorem ta_fold_char {B : Type} [Inhabited B] (cell : B → ℕ → ℕ) (slide : B → ℕ → B × ℤ)
    (net : Net) (before : B) (l : List ℕ) (s : TAState B) :
    (l.foldl (ta_step cell slide net before) s = s ∧
      ∀ op ∈ l, (slide before op).2 ≠ -1 →
        move_sum cell slide net before op ≤ (s.best_reward : ℚ) + s.best_value)
    ∨ (∃ k < l.length,
        (slide before (l.getD k 0)).2 ≠ -1 ∧
        l.foldl (ta_step cell slide net before) s
          = ⟨(slide before (l.getD k 0)).2,
             evaluate_score cell net (slide before (l.getD k 0)).1,
             (slide before (l.getD k 0)).1, ((l.getD k 0 : ℕ) : ℤ)⟩ ∧
        move_sum cell slide net before (l.getD k 0) > (s.best_reward : ℚ) + s.best_value ∧
        (∀ j < l.length, (slide before (l.getD j 0)).2 ≠ -1 →
          move_sum cell slide net before (l.getD j 0)
            ≤ move_sum cell slide net before (l.getD k 0)) ∧
        (∀ j < k, (slide before (l.getD j 0)).2 ≠ -1 →
          move_sum cell slide net before (l.getD j 0)
            < move_sum cell slide net before (l.getD k 0))) := by
  induction l generalizing s with
  | nil => exact Or.inl ⟨rfl, by simp⟩
  | cons a l ih =>
    by_cases hleg : (slide before a).2 = -1
    · have hs1 : ta_step cell slide net before s a = s := by
        simp [ta_step, hleg]
      rw [List.foldl_cons, hs1]
      rcases ih s with ⟨heq, hall⟩ | ⟨k, hk, hkleg, heq, hgt, hall, hstrict⟩
      · refine Or.inl ⟨heq, ?_⟩
        intro op hop hopleg
        rcases List.mem_cons.1 hop with h | h
        · exact absurd (h ▸ hleg) hopleg
        · exact hall op h hopleg
      · refine Or.inr ⟨k + 1, by simpa using hk, by simpa using hkleg, by simpa using heq,
          by simpa using hgt, ?_, ?_⟩
        · intro j hj hjleg
          cases j with
          | zero => exact absurd (by simpa using hjleg) (by simp [hleg])
          | succ j =>
            simp only [List.getD_cons_succ] at hjleg ⊢
            exact hall j (by simpa using hj) hjleg
        · intro j hj hjleg
          cases j with
          | zero => exact absurd (by simpa using hjleg) (by simp [hleg])
          | succ j =>
            simp only [List.getD_cons_succ] at hjleg ⊢
            exact hstrict j (by omega) hjleg
    · by_cases hgt : move_sum cell slide net before a > (s.best_reward : ℚ) + s.best_value
      · have hs1 : ta_step cell slide net before s a
            = ⟨(slide before a).2, evaluate_score cell net (slide before a).1,
               (slide before a).1, (a : ℤ)⟩ := by
          simp only [ta_step, if_neg hleg]
          rw [if_pos]
          exact hgt
        rw [List.foldl_cons, hs1]
        set s1 : TAState B := ⟨(slide before a).2, evaluate_score cell net (slide before a).1,
            (slide before a).1, (a : ℤ)⟩ with hs1def
        have hsum1 : (s1.best_reward : ℚ) + s1.best_value = move_sum cell slide net before a := by
          simp [hs1def, move_sum]
        rcases ih s1 with ⟨heq, hall⟩ | ⟨k, hk, hkleg, heq, hgt2, hall, hstrict⟩
        · refine Or.inr ⟨0, by simp, by simpa using hleg, by simpa using heq,
            by simpa using hgt, ?_, by omega⟩
          intro j hj hjleg
          cases j with
          | zero => simp
          | succ j =>
            simp only [List.getD_cons_succ, List.getD_cons_zero] at hjleg ⊢
            have hjl : j < l.length := by simpa using hj
            have hmem : l.getD j 0 ∈ l := by
              rw [List.getD_eq_getElem l 0 hjl]
              exact List.getElem_mem hjl
            rw [← hsum1]
            exact hall _ hmem hjleg
        · rw [hsum1] at hgt2
          refine Or.inr ⟨k + 1, by simpa using hk, by simpa using hkleg, by simpa using heq,
            by simpa using lt_trans hgt hgt2, ?_, ?_⟩
          · intro j hj hjleg
            cases j with
            | zero => simpa using le_of_lt hgt2
            | succ j =>
              simp only [List.getD_cons_succ] at hjleg ⊢
              exact hall j (by simpa using hj) hjleg
          · intro j hj hjleg
            cases j with
            | zero => simpa using hgt2
            | succ j =>
              simp only [List.getD_cons_succ] at hjleg ⊢
              exact hstrict j (by omega) hjleg
      · have hs1 : ta_step cell slide net before s a = s := by
          simp only [ta_step, if_neg hleg]
          rw [if_neg]
          exact hgt
        rw [List.foldl_cons, hs1]
        rcases ih s with ⟨heq, hall⟩ | ⟨k, hk, hkleg, heq, hgt2, hall, hstrict⟩
        · refine Or.inl ⟨heq, ?_⟩
          intro op hop hopleg
          rcases List.mem_cons.1 hop with h | h
          · subst h; exact le_of_not_lt hgt
          · exact hall op h hopleg
        · refine Or.inr ⟨k + 1, by simpa using hk, by simpa using hkleg, by simpa using heq,
            by simpa using hgt2, ?_, ?_⟩
          · intro j hj hjleg
            cases j with
            | zero => simpa using le_trans (le_of_not_lt hgt) (le_of_lt hgt2)
            | succ j =>
              simp only [List.getD_cons_succ] at hjleg ⊢
              exact hall j (by simpa using hj) hjleg
          · intro j hj hjleg
            cases j with
            | zero => simpa using lt_of_le_of_lt (le_of_not_lt hgt) hgt2
            | succ j =>
              simp only [List.getD_cons_succ] at hjleg ⊢
              exact hstrict j (by omega) hjleg

/-- On the literal move list 0,1,2,3 the default-read at k below 4 is k. -/
theorem opcode_getD (k : ℕ) (hk : k < 4) : ([0, 1, 2, 3] : List ℕ).getD k 0 = k := by
  interval_cases k <;> rfl

/-- C1 (amended): take_action tries the slide directions 0,1,2,3 in order on
private copies of the board and skips reward -1; among the legal moves whose
reward + evaluate_score(resulting board) exceeds -10000000 - the sum
best_reward + best_value of the loop's initializers -1 and -9999999 - it
returns the first one maximizing reward + evaluate_score, and appends exactly
the pair (resulting board, reward) of that move to the episode.  (Without a
legal move above that threshold the null action is returned and nothing is
appended, as the counterexample shows.) -/
theorem c1_take_action_first_argmax {B : Type} [Inhabited B] (cell : B → ℕ → ℕ)
    (slide : B → ℕ → B × ℤ) (net : Net) (episode : List (St B)) (before : B)
    (hex : ∃ op, op < 4 ∧ (slide before op).2 ≠ -1 ∧
      move_sum cell slide net before op > -10000000) :
    ∃ op, op < 4 ∧ (slide before op).2 ≠ -1 ∧
      move_sum cell slide net before op > -10000000 ∧
      (take_action cell slide net episode before).1.best_op = (op : ℤ) ∧
      (take_action cell slide net episode before).1.best_reward = (slide before op).2 ∧
      (take_action cell slide net episode before).1.after = (slide before op).1 ∧
      (take_action cell slide net episode before).2
        = episode ++ [⟨(slide before op).1, (slide before op).2⟩] ∧
      (∀ op2, op2 < 4 → (slide before op2).2 ≠ -1 →
        move_sum cell slide net before op2 ≤ move_sum cell slide net before op) ∧
      (∀ op2, op2 < op → (slide before op2).2 ≠ -1 →
        move_sum cell slide net before op2 < move_sum cell slide net before op) := by
  obtain ⟨op0, hop04, hop0leg, hop0gt⟩ := hex
  have hinit : ((⟨-1, -9999999, default, -1⟩ : TAState B).best_reward : ℚ)
      + (⟨-1, -9999999, default, -1⟩ : TAState B).best_value = -10000000 := by
    norm_num
  rcases ta_fold_char cell slide net before [0, 1, 2, 3] ⟨-1, -9999999, default, -1⟩ with
    ⟨_, hall⟩ | ⟨k, hk, hkleg, heq, hgt, hall, hstrict⟩
  · exfalso
    have hmem : op0 ∈ ([0, 1, 2, 3] : List ℕ) := by interval_cases op0 <;> simp
    have := hall op0 hmem hop0leg
    rw [hinit] at this
    exact absurd hop0gt (not_lt.2 this)
  · have hk4 : k < 4 := by simpa using hk
    rw [opcode_getD k hk4] at hkleg heq hgt hall hstrict
    refine ⟨k, hk4, hkleg, by rwa [hinit] at hgt, ?_, ?_, ?_, ?_, ?_, ?_⟩
    · show ([0,1,2,3].foldl (ta_step cell slide net before)
        ⟨-1, -9999999, default, -1⟩).best_op = (k : ℤ)
      rw [heq]
    · show ([0,1,2,3].foldl (ta_step cell slide net before)
        ⟨-1, -9999999, default, -1⟩).best_reward = (slide before k).2
      rw [heq]
    · show ([0,1,2,3].foldl (ta_step cell slide net before)
        ⟨-1, -9999999, default, -1⟩).after = (slide before k).1
      rw [heq]
    · show (if ([0,1,2,3].foldl (ta_step cell slide net before)
            ⟨-1, -9999999, default, -1⟩).best_op ≠ -1
          then episode ++ [⟨([0,1,2,3].foldl (ta_step cell slide net before)
                ⟨-1, -9999999, default, -1⟩).after,
              ([0,1,2,3].foldl (ta_step cell slide net before)
                ⟨-1, -9999999, default, -1⟩).best_reward⟩]
          else episode) = episode ++ [⟨(slide before k).1, (slide before k).2⟩]
      rw [heq]
      have hkne : ((k : ℤ)) ≠ -1 := by omega
      simp [hkne]
    · intro op2 hop24 hop2leg
      have h2 := hall op2 (by simpa using hop24)
      rw [opcode_getD op2 hop24] at h2
      exact h2 hop2leg
    · intro op2 hop2k hop2leg
      have hop24 : op2 < 4 := lt_trans hop2k hk4
      have h2 := hstrict op2 hop2k
      rw [opcode_getD op2 hop24] at h2
      exact h2 hop2leg

/-- C1 counterexample: a board with one legal slide (op 0, reward 0) and a
weight state making evaluate_score = -10000000, so that
reward + evaluate_score = -10000000 does not exceed the loop's initial
best_reward + best_value: take_action returns the null action (best_op -1)
and appends nothing, although a legal move - trivially the maximizer of
reward + evaluate_score over the legal moves - exists.  This refutes the
claim as stated. -/
theorem c1_take_action_counterexample :
    ((fun (_ : Unit) (op : ℕ) => ((), if op = 0 then (0 : ℤ) else -1)) () 0).2 ≠ -1 ∧
    (take_action (fun (_ : Unit) (_ : ℕ) => 0)
      (fun _ op => ((), if op = 0 then (0 : ℤ) else -1))
      (fun _ _ => -156250) [] ()).1.best_op = -1 ∧
    (take_action (fun (_ : Unit) (_ : ℕ) => 0)
      (fun _ op => ((), if op = 0 then (0 : ℤ) else -1))
      (fun _ _ => -156250) [] ()).2 = [] := by
  have hval : evaluate_score (fun (_ : Unit) (_ : ℕ) => 0) (fun _ _ => (-156250 : ℚ)) ()
      = -10000000 := by rw [evaluate_score_const]; norm_num
  refine ⟨by norm_num, ?_, ?_⟩ <;> norm_num [take_action, ta_step, hval]

/-- Witness for C1 at a concrete input: one legal move (op 0, reward 0) on
the all-zero weight state, whose move_sum 0 exceeds -10000000. -/
theorem c1_take_action_first_argmax_witness :
    (∃ op, op < 4 ∧ ((fun (_ : Unit) (op : ℕ) => ((), if op = 0 then (0 : ℤ) else -1)) () op).2 ≠ -1 ∧
      move_sum (fun (_ : Unit) (_ : ℕ) => 0)
        (fun _ op => ((), if op = 0 then (0 : ℤ) else -1)) (fun _ _ => 0) () op > -10000000) ∧
    (∃ op, op < 4 ∧ ((fun (_ : Unit) (op : ℕ) => ((), if op = 0 then (0 : ℤ) else -1)) () op).2 ≠ -1 ∧
      move_sum (fun (_ : Unit) (_ : ℕ) => 0)
        (fun _ op => ((), if op = 0 then (0 : ℤ) else -1)) (fun _ _ => 0) () op > -10000000 ∧
      (take_action (fun (_ : Unit) (_ : ℕ) => 0)
        (fun _ op => ((), if op = 0 then (0 : ℤ) else -1)) (fun _ _ => 0) [] ()).1.best_op = (op : ℤ) ∧
      (take_action (fun (_ : Unit) (_ : ℕ) => 0)
        (fun _ op => ((), if op = 0 then (0 : ℤ) else -1)) (fun _ _ => 0) [] ()).1.best_reward
        = (((), if op = 0 then (0 : ℤ) else -1) : Unit × ℤ).2 ∧
      (take_action (fun (_ : Unit) (_ : ℕ) => 0)
        (fun _ op => ((), if op = 0 then (0 : ℤ) else -1)) (fun _ _ => 0) [] ()).1.after
        = (((), if op = 0 then (0 : ℤ) else -1) : Unit × ℤ).1 ∧
      (take_action (fun (_ : Unit) (_ : ℕ) => 0)
        (fun _ op => ((), if op = 0 then (0 : ℤ) else -1)) (fun _ _ => 0) [] ()).2
        = [] ++ [⟨(((), if op = 0 then (0 : ℤ) else -1) : Unit × ℤ).1,
                 (((), if op = 0 then (0 : ℤ) else -1) : Unit × ℤ).2⟩] ∧
      (∀ op2, op2 < 4 → ((fun (_ : Unit) (op : ℕ) => ((), if op = 0 then (0 : ℤ) else -1)) () op2).2 ≠ -1 →
        move_sum (fun (_ : Unit) (_ : ℕ) => 0)
          (fun _ op => ((), if op = 0 then (0 : ℤ) else -1)) (fun _ _ => 0) () op2
          ≤ move_sum (fun (_ : Unit) (_ : ℕ) => 0)
              (fun _ op => ((), if op = 0 then (0 : ℤ) else -1)) (fun _ _ => 0) () op) ∧
      (∀ op2, op2 < op → ((fun (_ : Unit) (op : ℕ) => ((), if op = 0 then (0 : ℤ) else -1)) () op2).2 ≠ -1 →
        move_sum (fun (_ : Unit) (_ : ℕ) => 0)
          (fun _ op => ((), if op = 0 then (0 : ℤ) else -1)) (fun _ _ => 0) () op2
          < move_sum (fun (_ : Unit) (_ : ℕ) => 0)
              (fun _ op => ((), if op = 0 then (0 : ℤ) else -1)) (fun _ _ => 0) () op)) :=
  ⟨⟨0, by norm_num, by norm_num, by norm_num [move_sum, evaluate_score_const]⟩,
   c1_take_action_first_argmax (fun (_ : Unit) (_ : ℕ) => 0)
     (fun _ op => ((), if op = 0 then (0 : ℤ) else -1)) (fun _ _ => 0) [] ()
     ⟨0, by norm_num, by norm_num, by norm_num [move_sum, evaluate_score_const]⟩⟩

/-- C6: when all four slide directions report the illegal sentinel -1,
tuple_player::take_action appends nothing to the episode and returns the
null action (action::slide(-1), modelled as best_op = -1): a terminal/pass
signal, not an error. -/
theorem c6_all_illegal_null_action {B : Type} [Inhabited B] (cell : B → ℕ → ℕ)
    (slide : B → ℕ → B × ℤ) (net : Net) (episode : List (St B)) (before : B)
    (h : ∀ op, op < 4 → (slide before op).2 = -1) :
    (take_action cell slide net episode before).1.best_op = -1 ∧
    (take_action cell slide net episode before).2 = episode := by
  have h0 := h 0 (by norm_num); have h1 := h 1 (by norm_num)
  have h2 := h 2 (by norm_num); have h3 := h 3 (by norm_num)
  simp [take_action, ta_step, h0, h1, h2, h3]

/-- Witness for C6: a board on which every slide is illegal. -/
theorem c6_all_illegal_null_action_witness :
    (∀ op, op < 4 → ((fun (_ : Unit) (_ : ℕ) => ((), (-1 : ℤ))) () op).2 = -1) ∧
    ((take_action (fun (_ : Unit) (_ : ℕ) => 0) (fun _ op => ((), (-1 : ℤ)))
        (fun _ _ => 0) [] ()).1.best_op = -1 ∧
      (take_action (fun (_ : Unit) (_ : ℕ) => 0) (fun _ op => ((), (-1 : ℤ)))
        (fun _ _ => 0) [] ()).2 = []) :=
  ⟨fun _ _ => rfl,
   c6_all_illegal_null_action (fun _ _ => 0) (fun _ _ => ((), -1)) (fun _ _ => 0) [] ()
     (fun _ _ => rfl)⟩

/-- A successful scan of the rollout's move list is an application of a legal
move: scan_first_legal returns some b2 only via applyMove i p b = some b2 for
some position i in the list. -/
theorem scan_first_legal_some {B : Type} (applyMove : ℕ → Piece → B → Option B)
    (l : List ℕ) (p : Piece) (b b2 : B)
    (h : scan_first_legal applyMove l p b = some b2) :
    ∃ i ∈ l, applyMove i p b = some b2 := by
  induction l with
  | nil => simp [scan_first_legal] at h
  | cons a l ih =>
    rw [scan_first_legal] at h
    cases ha : applyMove a p b with
    | some t =>
      rw [ha] at h
      exact ⟨a, by simp, by rw [ha]; exact h⟩
    | none =>
      rw [ha] at h
      obtain ⟨i, hi, hai⟩ := ih h
      exact ⟨i, by simp [hi], hai⟩

/-- C10: rollout terminates.  Under the placement-game contract that a legal
placement strictly decreases the number of empty cells, the alternating-play
loop of rollout either applies a legal placement (strictly decreasing
empties) or detects that the side to move cannot move and exits; with fuel
empties(board) + 1 it always returns a score (never hits the fuel bound), and
rollout of any node resolves to a score. -/
theorem c10_rollout_terminates {B : Type} (applyMove : ℕ → Piece → B → Option B)
    (empties : B → ℕ)
    (hdec : ∀ i p b b2, applyMove i p b = some b2 → empties b2 < empties b)
    (who opponent : Piece) (my_space op_space : List ℕ) :
    (∀ fuel myop temp, empties temp < fuel →
      ∃ s, rollout_loop applyMove who opponent my_space op_space fuel myop temp = some s) ∧
    (∀ current : Node B,
      ∃ s, rollout applyMove who opponent my_space op_space
        (empties current.state + 1) current = some s) := by
  have main : ∀ fuel myop temp, empties temp < fuel →
      ∃ s, rollout_loop applyMove who opponent my_space op_space fuel myop temp = some s := by
    intro fuel
    induction fuel with
    | zero => intro myop temp h; omega
    | succ fuel ih =>
      intro myop temp hlt
      rw [rollout_loop]
      cases hscan : scan_first_legal applyMove
          (if myop = who then my_space else op_space) myop temp with
      | none =>
        exact ⟨_, rfl⟩
      | some temp2 =>
        obtain ⟨i, _, hai⟩ := scan_first_legal_some applyMove _ _ _ _ hscan
        have hless := hdec i myop temp temp2 hai
        exact ih _ temp2 (by omega)
  refine ⟨main, ?_⟩
  intro current
  rw [rollout]
  by_cases ht : current.is_terminal
  · rw [if_pos ht]
    exact ⟨_, rfl⟩
  · rw [if_neg ht]
    exact main _ _ current.state (by omega)

/-- Witness for C10: the trivial placement game with no legal move anywhere
(so the decreasing-empties contract holds vacuously). -/
theorem c10_rollout_terminates_witness :
    (∀ i (p : Piece) (b b2 : Unit), (fun (_ : ℕ) (_ : Piece) (_ : Unit) => (none : Option Unit)) i p b = some b2 →
      (fun (_ : Unit) => 0) b2 < (fun (_ : Unit) => 0) b) ∧
    (∀ current : Node Unit,
      ∃ s, rollout (fun (_ : ℕ) (_ : Piece) (_ : Unit) => (none : Option Unit))
        Piece.black Piece.white [] [] ((fun (_ : Unit) => 0) current.state + 1) current = some s) :=
  ⟨fun i p b b2 h => by simp at h,
   (c10_rollout_terminates (fun _ _ _ => none) (fun _ => 0)
     (fun i p b b2 h => by simp at h) Piece.black Piece.white [] []).2⟩

/-- The int parent-visit counter is at most 2^31, so ln(parent.si) < 22. -/
theorem log_parent_lt (psi : ℤ) (h1 : 1 ≤ psi) (h2 : psi ≤ 2 ^ 31) :
    Real.log (psi : ℝ) < 22 := by
  have hpos : (0 : ℝ) < (psi : ℝ) := by exact_mod_cast lt_of_lt_of_le one_pos h1
  rw [Real.log_lt_iff_lt_exp hpos]
  have hexp : Real.exp 22 = Real.exp 1 ^ 22 := by
    rw [← Real.exp_nat_mul]
    norm_num
  have hgt : (2.7182818283 : ℝ) ^ 22 ≤ Real.exp 1 ^ 22 :=
    pow_le_pow_left (by norm_num) (le_of_lt Real.exp_one_gt_d9) 22
  have hnum : (2147483648 : ℝ) < (2.7182818283 : ℝ) ^ 22 := by norm_num
  have hcast : (psi : ℝ) ≤ 2147483648 := by exact_mod_cast h2
  linarith [hexp ▸ hgt]

/-- A zero-visit child scores the sentinel 1000000 in both branches of
best_child. -/
theorem best_child_zero_visits {B : Type} (who : Piece) (c : ℝ) (psi : ℤ) (ch : Node B)
    (hz : ch.si = 0) : best_child who c psi ch = 1000000 := by
  rw [best_child]
  by_cases hw : who = ch.self
  · rw [if_pos hw, if_pos hz]
  · rw [if_neg hw, if_pos hz]

/-- A visited child scores strictly below the zero-visit sentinel: its
exploitation term lies in [0,1] and its exploration bonus is below
c * sqrt(22) < 5 for any int-representable parent visit count. -/
theorem best_child_lt_sentinel {B : Type} (who : Piece) (c : ℝ) (psi : ℤ) (ch : Node B)
    (hwi0 : 0 ≤ ch.wi) (hwisi : ch.wi ≤ ch.si) (hsi : ¬ ch.si = 0)
    (hpsi1 : 1 ≤ psi) (hpsi2 : psi ≤ 2 ^ 31) (hc0 : 0 ≤ c) (hc1 : c ≤ 1) :
    best_child who c psi ch < 1000000 := by
  have hsiR : (1 : ℝ) ≤ (ch.si : ℝ) := by exact_mod_cast (by omega : (1 : ℤ) ≤ ch.si)
  have hsiRpos : (0 : ℝ) < (ch.si : ℝ) := by linarith
  have hlog : Real.log (psi : ℝ) < 22 := log_parent_lt psi hpsi1 hpsi2
  have hlog0 : 0 ≤ Real.log (psi : ℝ) :=
    Real.log_nonneg (by exact_mod_cast hpsi1)
  have hdiv : Real.log (psi : ℝ) / (ch.si : ℝ) ≤ Real.log (psi : ℝ) :=
    div_le_self hlog0 hsiR
  have hsq : (5 : ℝ) ^ 2 = 25 := by norm_num
  have hsqrt : Real.sqrt (Real.log (psi : ℝ) / (ch.si : ℝ)) < 5 := by
    rw [Real.sqrt_lt' (by norm_num : (0 : ℝ) < 5)]
    linarith
  have hsqrt0 : 0 ≤ Real.sqrt (Real.log (psi : ℝ) / (ch.si : ℝ)) := Real.sqrt_nonneg _
  have hbonus : c * Real.sqrt (Real.log (psi : ℝ) / (ch.si : ℝ)) < 5 :=
    lt_of_le_of_lt (mul_le_of_le_one_left hsqrt0 hc1) hsqrt
  have hratio0 : (0 : ℝ) ≤ (ch.wi : ℝ) / (ch.si : ℝ) :=
    div_nonneg (by exact_mod_cast hwi0) (le_of_lt hsiRpos)
  have hratio1 : (ch.wi : ℝ) / (ch.si : ℝ) ≤ 1 := by
    rw [div_le_one hsiRpos]
    exact_mod_cast hwisi
  rw [best_child]
  by_cases hw : who = ch.self
  · rw [if_pos hw, if_neg hsi]
    linarith
  · rw [if_neg hw, if_neg hsi]
    linarith

/-- Once the running best of the selection scan holds the zero-visit
sentinel, no later child (all scoring at most the sentinel) replaces the
recorded index. -/
theorem select_fold_saturated {B : Type} (who : Piece) (c : ℝ) (psi : ℤ)
    (l : List (Node B)) (k : ℕ)
    (hb : ∀ ch ∈ l, best_child who c psi ch ≤ 1000000) :
    ∀ i0, l.foldl (select_step who c psi) (1000000, k, i0) = (1000000, k, i0 + l.length) := by
  induction l with
  | nil => intro i0; simp
  | cons a l ih =>
    intro i0
    rw [List.foldl_cons]
    have hstep : select_step who c psi (1000000, k, i0) a = (1000000, k, i0 + 1) := by
      rw [select_step]
      rw [if_neg (not_lt.2 (hb a (by simp)))]
    rw [hstep, ih (fun ch hch => hb ch (by simp [hch]))]
    rw [List.length_cons]
    have harith : i0 + 1 + l.length = i0 + (l.length + 1) := by omega
    rw [harith]

/-- While scanning children that all score strictly below the sentinel, the
running best stays strictly below the sentinel and the running index counts
the children seen. -/
theorem select_fold_below {B : Type} (who : Piece) (c : ℝ) (psi : ℤ)
    (l : List (Node B))
    (hl : ∀ ch ∈ l, best_child who c psi ch < 1000000) :
    ∀ (b0 : ℝ), b0 < 1000000 → ∀ k0 i0,
      (l.foldl (select_step who c psi) (b0, k0, i0)).1 < 1000000 ∧
      (l.foldl (select_step who c psi) (b0, k0, i0)).2.2 = i0 + l.length := by
  induction l with
  | nil => intro b0 hb0 k0 i0; simpa using hb0
  | cons a l ih =>
    intro b0 hb0 k0 i0
    rw [List.foldl_cons, select_step]
    by_cases h : b0 < best_child who c psi a
    · rw [if_pos h]
      have hres := ih (fun ch hch => hl ch (by simp [hch]))
        (best_child who c psi a) (hl a (by simp)) i0 (i0 + 1)
      exact ⟨hres.1, by rw [hres.2, List.length_cons]; omega⟩
    · rw [if_neg h]
      have hres := ih (fun ch hch => hl ch (by simp [hch])) b0 hb0 k0 (i0 + 1)
      exact ⟨hres.1, by rw [hres.2, List.length_cons]; omega⟩

/-- C2 (amended): best_child keys on the node field self, the piece whose
move produced the child (the root carries self = opponent, so at a child
with self = who it is the opponent's turn to act): when who = self the score
is wi/si + c*sqrt(ln(parent.si)/si); when self is the opponent's piece (who
to act at the child) the score is (1 - wi/si) + c*sqrt(ln(parent.si)/si);
the claim's association of the uninverted score with "mover-to-act equals
who" is the opposite one (see the counterexample).  A zero-visit child
scores the sentinel 1000000, and the selection scan picks the first
zero-visit child ahead of any visited sibling, for any int-representable
parent visit count >= 1 and exploration constant in [0,1] (the code's 0.8),
ties among zero-visit children falling to enumeration order. -/
theorem c2_best_child_and_selection {B : Type} (who : Piece) (c : ℝ) :
    (∀ (psi : ℤ) (n : Node B), who = n.self → ¬ n.si = 0 →
      best_child who c psi n = (n.wi : ℝ) / (n.si : ℝ)
        + c * Real.sqrt (Real.log (psi : ℝ) / (n.si : ℝ))) ∧
    (∀ (psi : ℤ) (n : Node B), ¬ who = n.self → ¬ n.si = 0 →
      best_child who c psi n = (1 - (n.wi : ℝ) / (n.si : ℝ))
        + c * Real.sqrt (Real.log (psi : ℝ) / (n.si : ℝ))) ∧
    (∀ (psi : ℤ) (n : Node B), n.si = 0 → best_child who c psi n = 1000000) ∧
    (∀ (psi : ℤ) (pre post : List (Node B)) (z : Node B), z.si = 0 →
      (∀ ch ∈ pre, ¬ ch.si = 0) →
      (∀ ch ∈ pre ++ z :: post, 0 ≤ ch.wi ∧ ch.wi ≤ ch.si) →
      1 ≤ psi → psi ≤ 2 ^ 31 → 0 ≤ c → c ≤ 1 →
      select_index who c psi (pre ++ z :: post) = pre.length) := by
  refine ⟨?_, ?_, ?_, ?_⟩
  · intro psi n hw hs
    rw [best_child, if_pos hw, if_neg hs]
  · intro psi n hw hs
    rw [best_child, if_neg hw, if_neg hs]
  · intro psi n hz
    exact best_child_zero_visits who c psi n hz
  · intro psi pre post z hz hpre hbounds hpsi1 hpsi2 hc0 hc1
    have hprelt : ∀ ch ∈ pre, best_child who c psi ch < 1000000 := by
      intro ch hch
      have hb := hbounds ch (by simp [hch])
      exact best_child_lt_sentinel who c psi ch hb.1 hb.2 (hpre ch hch) hpsi1 hpsi2 hc0 hc1
    have hpostle : ∀ ch ∈ post, best_child who c psi ch ≤ 1000000 := by
      intro ch hch
      by_cases hs : ch.si = 0
      · rw [best_child_zero_visits who c psi ch hs]
      · have hb := hbounds ch (by simp [hch])
        exact le_of_lt
          (best_child_lt_sentinel who c psi ch hb.1 hb.2 hs hpsi1 hpsi2 hc0 hc1)
    rw [select_index, List.foldl_append]
    obtain ⟨hlt, hidx⟩ := select_fold_below who c psi pre hprelt 0 (by norm_num) 0 0
    rw [List.foldl_cons]
    have hstep : select_step who c psi (pre.foldl (select_step who c psi) (0, 0, 0)) z
        = (1000000, pre.length,  pre.length + 1) := by
      rw [select_step, best_child_zero_visits who c psi z hz, if_pos hlt]
      rw [show (0 : ℕ) + pre.length = pre.length from by omega] at hidx
      rw [hidx]
    rw [hstep, select_fold_saturated who c psi post pre.length hpostle (pre.length + 1)]

/-- C2 counterexample: at the child Node(wi 0, si 1, self white) with
who = black, exploration 0.8, parent visits 1, the mover-to-act
(my_opponent self) is black = who, yet the code scores the child
(1 - wi/si) + bonus = 1, not the claim's wi/si + bonus = 0. -/
theorem c2_best_child_counterexample :
    my_opponent (Node.self (Node.mk (B := Unit) 0 1 true false () Piece.white 0 []))
      = Piece.black ∧
    best_child Piece.black 0.8 1 (Node.mk (B := Unit) 0 1 true false () Piece.white 0 []) = 1 ∧
    ((Node.wi (Node.mk (B := Unit) 0 1 true false () Piece.white 0 []) : ℝ)
        / (Node.si (Node.mk (B := Unit) 0 1 true false () Piece.white 0 []) : ℝ)
      + 0.8 * Real.sqrt (Real.log ((1 : ℤ) : ℝ)
        / (Node.si (Node.mk (B := Unit) 0 1 true false () Piece.white 0 []) : ℝ))) = 0 ∧
    (1 : ℝ) ≠ 0 := by
  refine ⟨rfl, ?_, ?_, one_ne_zero⟩
  · rw [best_child]
    rw [if_neg (by simp [Node.self] : ¬ Piece.black
      = (Node.mk (B := Unit) 0 1 true false () Piece.white 0 []).self)]
    rw [if_neg (by simp [Node.si] : ¬ (Node.mk (B := Unit) 0 1 true false () Piece.white 0 []).si = 0)]
    simp [Node.wi, Node.si]
  · simp [Node.wi, Node.si]

/-- Witness for C2: with two children (a visited one first, then a zero-visit
one), the descent selects the zero-visit child, index 1. -/
theorem c2_best_child_and_selection_witness :
    ((Node.si (Node.mk (B := Unit) 0 0 true false () Piece.black 1 []) = 0) ∧
      (∀ ch ∈ [Node.mk (B := Unit) 0 1 true false () Piece.black 0 []], ¬ Node.si ch = 0) ∧
      (∀ ch ∈ [Node.mk (B := Unit) 0 1 true false () Piece.black 0 []]
          ++ Node.mk (B := Unit) 0 0 true false () Piece.black 1 [] :: [],
        0 ≤ Node.wi ch ∧ Node.wi ch ≤ Node.si ch) ∧
      (1 : ℤ) ≤ 1 ∧ (1 : ℤ) ≤ 2 ^ 31 ∧ (0 : ℝ) ≤ 0.8 ∧ (0.8 : ℝ) ≤ 1) ∧
    select_index Piece.black 0.8 1
      ([Node.mk (B := Unit) 0 1 true false () Piece.black 0 []]
        ++ Node.mk (B := Unit) 0 0 true false () Piece.black 1 [] :: [])
      = ([Node.mk (B := Unit) 0 1 true false () Piece.black 0 []]).length :=
  ⟨⟨rfl,
    by intro ch hch; simp only [List.mem_singleton] at hch; subst hch; simp [Node.si],
    by
      intro ch hch
      simp only [List.singleton_append, List.mem_cons, List.not_mem_nil, or_false] at hch
      rcases hch with h | h <;> subst h <;> exact ⟨by simp [Node.wi], by simp [Node.wi, Node.si]⟩,
    le_refl 1, by norm_num, by norm_num, by norm_num⟩,
   (c2_best_child_and_selection Piece.black 0.8).2.2.2 1
     [Node.mk (B := Unit) 0 1 true false () Piece.black 0 []] []
     (Node.mk (B := Unit) 0 0 true false () Piece.black 1 []) rfl
     (by intro ch hch; simp only [List.mem_singleton] at hch; subst hch; simp [Node.si])
     (by
       intro ch hch
       simp only [List.singleton_append, List.mem_cons, List.not_mem_nil, or_false] at hch
       rcases hch with h | h <;> subst h <;> exact ⟨by simp [Node.wi], by simp [Node.wi, Node.si]⟩)
     (le_refl 1) (by norm_num) (by norm_num) (by norm_num)⟩

/-- Counters after one backpropogation visit. -/
theorem wi_bump {B : Type} (score : ℤ) (n : Node B) : (n.bump score).wi = n.wi + score := by
  cases n; rfl

theorem si_bump {B : Type} (score : ℤ) (n : Node B) : (n.bump score).si = n.si + 1 := by
  cases n; rfl

theorem childrens_bump {B : Type} (score : ℤ) (n : Node B) :
    (n.bump score).childrens = n.childrens := by
  cases n; rfl

theorem isleaf_bump {B : Type} (score : ℤ) (n : Node B) :
    (n.bump score).isleaf = n.isleaf := by
  cases n; rfl

theorem is_terminal_bump {B : Type} (score : ℤ) (n : Node B) :
    (n.bump score).is_terminal = n.is_terminal := by
  cases n; rfl

theorem state_bump {B : Type} (score : ℤ) (n : Node B) : (n.bump score).state = n.state := by
  cases n; rfl

theorem self_bump {B : Type} (score : ℤ) (n : Node B) : (n.bump score).self = n.self := by
  cases n; rfl

/-- Fields after marking a node terminal. -/
theorem wi_mark {B : Type} (n : Node B) : n.mark_terminal.wi = n.wi := by cases n; rfl

theorem si_mark {B : Type} (n : Node B) : n.mark_terminal.si = n.si := by cases n; rfl

theorem childrens_mark {B : Type} (n : Node B) :
    n.mark_terminal.childrens = n.childrens := by cases n; rfl

theorem isleaf_mark {B : Type} (n : Node B) : n.mark_terminal.isleaf = n.isleaf := by
  cases n; rfl

theorem is_terminal_mark {B : Type} (n : Node B) : n.mark_terminal.is_terminal = true := by
  cases n; rfl

theorem state_mark {B : Type} (n : Node B) : n.mark_terminal.state = n.state := by
  cases n; rfl

theorem self_mark {B : Type} (n : Node B) : n.mark_terminal.self = n.self := by
  cases n; rfl

/-- Fields after installing expanded children. -/
theorem wi_set_expanded {B : Type} (newch : List (Node B)) (n : Node B) :
    (n.set_expanded newch).wi = n.wi := by cases n; rfl

theorem si_set_expanded {B : Type} (newch : List (Node B)) (n : Node B) :
    (n.set_expanded newch).si = n.si := by cases n; rfl

theorem childrens_set_expanded {B : Type} (newch : List (Node B)) (n : Node B) :
    (n.set_expanded newch).childrens = newch := by cases n; rfl

/-- Fields after replacing the children list. -/
theorem wi_replace_childrens {B : Type} (n : Node B) (ch : List (Node B)) :
    (n.replace_childrens ch).wi = n.wi := by cases n; rfl

theorem si_replace_childrens {B : Type} (n : Node B) (ch : List (Node B)) :
    (n.replace_childrens ch).si = n.si := by cases n; rfl

theorem childrens_replace_childrens {B : Type} (n : Node B) (ch : List (Node B)) :
    (n.replace_childrens ch).childrens = ch := by cases n; rfl

/-- Backpropogation maps the counter chain: every node on the parent chain
from the leaf to the root gets wi + score and si + 1. -/
theorem counters_backprop {B : Type} (score : ℤ) :
    ∀ (p : List ℕ) (t : Node B),
      counters_along p (backpropogation score p t)
        = (counters_along p t).map (fun ws => (ws.1 + score, ws.2 + 1)) := by
  intro p
  induction p with
  | nil =>
    intro t
    rw [backpropogation, counters_along, counters_along]
    rw [wi_bump, si_bump]
    rfl
  | cons i p ih =>
    intro t
    rw [backpropogation]
    cases hget : t.childrens.get? i with
    | none =>
      rw [counters_along, counters_along]
      rw [wi_bump, si_bump, childrens_bump, hget]
      rfl
    | some c =>
      rw [counters_along, counters_along]
      rw [wi_bump, si_bump, childrens_bump, childrens_replace_childrens]
      have hlen : i < t.childrens.length := by
        by_contra hcon
        rw [List.get?_eq_none.2 (by omega)] at hget
        exact Option.noConfusion hget
      rw [List.get?_set_eq_of_lt _ hlen, hget]
      simp only [wi_replace_childrens, si_replace_childrens, ih c, List.map_cons]

/-- Visit-count bookkeeping of one backpropogation call: adding 1 at every
chain entry adds the chain length to the visit total. -/
theorem sum_snd_map_bump (score : ℤ) (l : List (ℤ × ℤ)) :
    ((l.map (fun ws => (ws.1 + score, ws.2 + 1))).map Prod.snd).sum
      = (l.map Prod.snd).sum + l.length := by
  induction l with
  | nil => simp
  | cons a l ih =>
    simp only [List.map_cons, List.sum_cons, List.length_cons, ih]
    omega

/-- Closed form of the per-node counter evolution: after receiving the given
backpropogation scores, a node holds (sum of scores, number of scores). -/
theorem counter_updates_char (scores : List ℤ) :
    counter_updates scores = (scores.sum, (scores.length : ℤ)) := by
  have main : ∀ (l : List ℤ) (w s : ℤ),
      l.foldl (fun ws s2 => (ws.1 + s2, ws.2 + 1)) (w, s) = (w + l.sum, s + (l.length : ℤ)) := by
    intro l
    induction l with
    | nil => intro w s; simp
    | cons a l ih =>
      intro w s
      rw [List.foldl_cons]
      show l.foldl (fun ws s2 => (ws.1 + s2, ws.2 + 1)) (w + a, s + 1) = _
      rw [ih (w + a) (s + 1), List.sum_cons, List.length_cons]
      simp only [Prod.mk.injEq]
      constructor
      · ring
      · push_cast
        ring
  have h := main scores 0 0
  simpa [counter_updates] using h

/-- A list of rollout scores, each 0 or 1, sums to something between 0 and
its length. -/
theorem scores_sum_bounds (scores : List ℤ) (h : ∀ s ∈ scores, 0 ≤ s ∧ s ≤ 1) :
    0 ≤ scores.sum ∧ scores.sum ≤ (scores.length : ℤ) := by
  induction scores with
  | nil => simp
  | cons a l ih =>
    have ha := h a (by simp)
    have hl := ih (fun s hs => h s (by simp [hs]))
    simp only [List.sum_cons, List.length_cons]
    constructor
    · linarith [hl.1]
    · push_cast
      omega

/-- The rollout play-out loop only ever reports score 0 or 1 (0 is also the
getD default on a fuel miss). -/
theorem rollout_loop_score_cases {B : Type} (applyMove : ℕ → Piece → B → Option B)
    (who opponent : Piece) (my_space op_space : List ℕ) :
    ∀ (fuel : ℕ) (myop : Piece) (temp : B),
      (rollout_loop applyMove who opponent my_space op_space fuel myop temp).getD 0 = 0 ∨
      (rollout_loop applyMove who opponent my_space op_space fuel myop temp).getD 0 = 1 := by
  intro fuel
  induction fuel with
  | zero => intro myop temp; left; rfl
  | succ fuel ih =>
    intro myop temp
    rw [rollout_loop]
    cases hscan : scan_first_legal applyMove
        (if myop = who then my_space else op_space) myop temp with
    | none =>
      by_cases hw : myop = who
      · left; simp [hw]
      · right; simp [hw]
    | some temp2 => exact ih _ temp2

/-- rollout itself only ever reports score 0 or 1. -/
theorem rollout_score_cases {B : Type} (applyMove : ℕ → Piece → B → Option B)
    (who opponent : Piece) (my_space op_space : List ℕ) (fuel : ℕ) (current : Node B) :
    (rollout applyMove who opponent my_space op_space fuel current).getD 0 = 0 ∨
    (rollout applyMove who opponent my_space op_space fuel current).getD 0 = 1 := by
  rw [rollout]
  by_cases ht : current.is_terminal
  · rw [if_pos ht]
    by_cases hw : who ≠ my_opponent current.self
    · right; simp [hw]
    · left; simp [hw]
  · rw [if_neg ht]
    exact rollout_loop_score_cases applyMove who opponent my_space op_space fuel _ _

/-- Inversion for all_nodes. -/
theorem all_nodes_iff {B : Type} (P : Node B → Prop) (n : Node B) :
    all_nodes P n ↔ P n ∧ ∀ c ∈ n.childrens, all_nodes P c := by
  constructor
  · intro h
    cases h with
    | intro n hn hch => exact ⟨hn, hch⟩
  · intro h
    exact all_nodes.intro n h.1 h.2

/-- One backpropogation visit with a rollout score in {0,1} preserves the
counter invariant 0 <= wi <= si on a whole tree. -/
theorem all_nodes_bump {B : Type} (score : ℤ) (hs0 : 0 ≤ score) (hs1 : score ≤ 1)
    (n : Node B) (h : all_nodes (fun n => 0 ≤ n.wi ∧ n.wi ≤ n.si) n) :
    all_nodes (fun n => 0 ≤ n.wi ∧ n.wi ≤ n.si) (n.bump score) := by
  obtain ⟨hn, hch⟩ := (all_nodes_iff _ n).1 h
  obtain ⟨hn1, hn2⟩ := hn
  refine (all_nodes_iff _ _).2 ⟨?_, ?_⟩
  · rw [wi_bump, si_bump]
    exact ⟨by omega, by omega⟩
  · rw [childrens_bump]
    exact hch

/-- Backpropogation of a score in {0,1} preserves the counter invariant. -/
theorem all_nodes_backprop {B : Type} (score : ℤ) (hs0 : 0 ≤ score) (hs1 : score ≤ 1) :
    ∀ (p : List ℕ) (t : Node B),
      all_nodes (fun n => 0 ≤ n.wi ∧ n.wi ≤ n.si) t →
      all_nodes (fun n => 0 ≤ n.wi ∧ n.wi ≤ n.si) (backpropogation score p t) := by
  intro p
  induction p with
  | nil =>
    intro t h
    rw [backpropogation]
    exact all_nodes_bump score hs0 hs1 t h
  | cons i p ih =>
    intro t h
    rw [backpropogation]
    cases hget : t.childrens.get? i with
    | none => exact all_nodes_bump score hs0 hs1 t h
    | some c =>
      apply all_nodes_bump score hs0 hs1
      obtain ⟨hn, hch⟩ := (all_nodes_iff _ t).1 h
      refine (all_nodes_iff _ _).2 ⟨?_, ?_⟩
      · rw [wi_replace_childrens, si_replace_childrens]
        exact hn
      · rw [childrens_replace_childrens]
        intro c2 hc2
        rcases List.mem_or_eq_of_mem_set hc2 with hmem | heq
        · exact hch c2 hmem
        · subst heq
          exact ih c (hch c (List.get?_mem hget))

/-- The node a valid path addresses inherits any all_nodes property. -/
theorem node_at_all_nodes {B : Type} (P : Node B → Prop) :
    ∀ (p : List ℕ) (t m : Node B), node_at p t = some m → all_nodes P t → all_nodes P m := by
  intro p
  induction p with
  | nil =>
    intro t m hm h
    rw [node_at] at hm
    cases hm
    exact h
  | cons i p ih =>
    intro t m hm h
    rw [node_at] at hm
    cases hget : t.childrens.get? i with
    | none => rw [hget] at hm; exact Option.noConfusion hm
    | some c =>
      rw [hget] at hm
      exact ih c m hm (((all_nodes_iff _ t).1 h).2 c (List.get?_mem hget))

/-- Replacing the node at a path by a tree that satisfies the counter
invariant preserves the invariant. -/
theorem all_nodes_replace_at {B : Type} :
    ∀ (p : List ℕ) (t e : Node B),
      all_nodes (fun n => 0 ≤ n.wi ∧ n.wi ≤ n.si) t →
      all_nodes (fun n => 0 ≤ n.wi ∧ n.wi ≤ n.si) e →
      all_nodes (fun n => 0 ≤ n.wi ∧ n.wi ≤ n.si) (replace_at e p t) := by
  intro p
  induction p with
  | nil => intro t e _ he; rw [replace_at]; exact he
  | cons i p ih =>
    intro t e h he
    rw [replace_at]
    cases hget : t.childrens.get? i with
    | none => exact h
    | some c =>
      obtain ⟨hn, hch⟩ := (all_nodes_iff _ t).1 h
      refine (all_nodes_iff _ _).2 ⟨?_, ?_⟩
      · rw [wi_replace_childrens, si_replace_childrens]
        exact hn
      · rw [childrens_replace_childrens]
        intro c2 hc2
        rcases List.mem_or_eq_of_mem_set hc2 with hmem | heq
        · exact hch c2 hmem
        · subst heq
          exact ih c e (hch c (List.get?_mem hget)) he

/-- Expansion preserves the counter invariant: flags and children change but
no counters do, and freshly created children start at wi = si = 0. -/
theorem all_nodes_expand {B : Type} (applyMove : ℕ → Piece → B → Option B)
    (boardSize : ℕ) (shuffle : List (Node B) → List (Node B))
    (hshuffle : ∀ (l : List (Node B)), ∀ x ∈ shuffle l, x ∈ l) (n : Node B)
    (h : all_nodes (fun n => 0 ≤ n.wi ∧ n.wi ≤ n.si) n) :
    all_nodes (fun n => 0 ≤ n.wi ∧ n.wi ≤ n.si)
      (expand applyMove boardSize shuffle n).1 := by
  rw [expand]
  by_cases ht : n.is_terminal
  · rw [if_pos ht]
    exact h
  · rw [if_neg ht]
    obtain ⟨hn, hch⟩ := (all_nodes_iff _ n).1 h
    by_cases hkids : ((List.range boardSize).filterMap (fun i =>
        match applyMove i (my_opponent n.self) n.state with
        | some temp => some (Node.mk 0 0 true false temp (my_opponent n.self) i [])
        | none => none)).isEmpty
    · rw [if_pos hkids]
      refine (all_nodes_iff _ _).2 ⟨?_, ?_⟩
      · rw [wi_mark, si_mark]
        exact hn
      · rw [childrens_mark]
        exact hch
    · rw [if_neg hkids]
      refine (all_nodes_iff _ _).2 ⟨?_, ?_⟩
      · rw [wi_set_expanded, si_set_expanded]
        exact hn
      · rw [childrens_set_expanded]
        intro x hx
        have hx2 := hshuffle _ x hx
        obtain ⟨i, _, hxi⟩ := List.mem_filterMap.1 hx2
        cases happ : applyMove i (my_opponent n.self) n.state with
        | none =>
          rw [happ] at hxi
          exact Option.noConfusion hxi
        | some temp =>
          rw [happ] at hxi
          cases hxi
          refine (all_nodes_iff _ _).2 ⟨⟨le_refl 0, le_refl 0⟩, ?_⟩
          intro c hc
          rw [Node.childrens] at hc
          exact absurd hc (List.not_mem_nil c)

/-- The UCB1 descent only ever follows existing children: the path
selection_path produces addresses a node of the tree. -/
theorem node_at_selection_path {B : Type} (who : Piece) (c : ℝ) :
    ∀ (t : Node B), ∃ m, node_at (selection_path who c t) t = some m := by
  have main : ∀ (k : ℕ) (t : Node B), sizeOf t ≤ k →
      ∃ m, node_at (selection_path who c t) t = some m := by
    intro k
    induction k with
    | zero =>
      intro t h
      exfalso
      cases t with
      | mk wi si l ht st se mv ch =>
        simp only [Node.mk.sizeOf_spec] at h
        omega
    | succ k ih =>
      intro t hle
      cases t with
      | mk wi si isleaf ist st se mv ch =>
        rw [selection_path]
        by_cases hl : isleaf
        · rw [if_pos hl]
          exact ⟨_, rfl⟩
        · rw [if_neg hl]
          cases hget : ch.get? (select_index who c si ch) with
          | none =>
            exact ⟨_, rfl⟩
          | some c2 =>
            have hsz : sizeOf c2 < sizeOf (Node.mk wi si isleaf ist st se mv ch) := by
              have h1 := List.sizeOf_lt_of_mem (List.get?_mem hget)
              simp only [Node.mk.sizeOf_spec]
              omega
            obtain ⟨m, hm⟩ := ih c2 (by omega)
            refine ⟨m, ?_⟩
            rw [node_at]
            show (match Node.childrens (Node.mk wi si isleaf ist st se mv ch)
                |>.get? (select_index who c si ch) with
              | some c3 => node_at (selection_path who c c2) c3
              | none => none) = some m
            rw [Node.childrens, hget]
            exact hm
  intro t
  exact main (sizeOf t) t (le_refl _)

/-- Splitting node_at over an appended path. -/
theorem node_at_append {B : Type} :
    ∀ (p q : List ℕ) (t : Node B),
      node_at (p ++ q) t = (node_at p t).bind (node_at q) := by
  intro p
  induction p with
  | nil => intro q t; rfl
  | cons i p ih =>
    intro q t
    rw [List.cons_append, node_at, node_at]
    cases hget : t.childrens.get? i with
    | none => rfl
    | some c => exact ih q c

/-- After replacing the node at a valid path, the path addresses the
replacement. -/
theorem node_at_replace_at {B : Type} (e : Node B) :
    ∀ (p : List ℕ) (t m : Node B), node_at p t = some m →
      node_at p (replace_at e p t) = some e := by
  intro p
  induction p with
  | nil => intro t m _; rfl
  | cons i p ih =>
    intro t m hm
    rw [node_at] at hm
    cases hget : t.childrens.get? i with
    | none => rw [hget] at hm; exact Option.noConfusion hm
    | some c =>
      rw [hget] at hm
      rw [replace_at, hget, node_at, childrens_replace_childrens]
      have hlen : i < t.childrens.length := by
        by_contra hcon
        rw [List.get?_eq_none.2 (by omega)] at hget
        exact Option.noConfusion hget
      rw [List.get?_set_eq_of_lt _ hlen]
      exact ih c m hm

/-- Backpropogation always bumps the root's visit counter by exactly 1. -/
theorem backprop_root_si {B : Type} (score : ℤ) (p : List ℕ) (t : Node B) :
    (backpropogation score p t).si = t.si + 1 := by
  cases p with
  | nil => rw [backpropogation, si_bump]
  | cons i p =>
    rw [backpropogation]
    cases hget : t.childrens.get? i with
    | none => rw [si_bump]
    | some c => rw [si_bump, si_replace_childrens]

/-- Expansion leaves both counters of the expanded node unchanged. -/
theorem expand_si {B : Type} (applyMove : ℕ → Piece → B → Option B) (boardSize : ℕ)
    (shuffle : List (Node B) → List (Node B)) (n : Node B) :
    (expand applyMove boardSize shuffle n).1.si = n.si := by
  rw [expand]
  by_cases ht : n.is_terminal
  · rw [if_pos ht]
  · rw [if_neg ht]
    by_cases hkids : ((List.range boardSize).filterMap (fun i =>
        match applyMove i (my_opponent n.self) n.state with
        | some temp => some (Node.mk 0 0 true false temp (my_opponent n.self) i [])
        | none => none)).isEmpty
    · rw [if_pos hkids]
      exact si_mark n
    · rw [if_neg hkids]
      exact si_set_expanded _ n

/-- When expansion reports a descent into a front child, the expanded node
has a child at index 0 (the shuffle permutes the nonempty children list). -/
theorem expand_front_child {B : Type} (applyMove : ℕ → Piece → B → Option B)
    (boardSize : ℕ) (shuffle : List (Node B) → List (Node B))
    (hlen : ∀ l : List (Node B), (shuffle l).length = l.length) (n : Node B)
    (hdesc : (expand applyMove boardSize shuffle n).2 = true) :
    ∃ c0, (expand applyMove boardSize shuffle n).1.childrens.get? 0 = some c0 := by
  rw [expand] at hdesc ⊢
  by_cases ht : n.is_terminal
  · rw [if_pos ht] at hdesc
    exact Bool.noConfusion hdesc
  · rw [if_neg ht] at hdesc ⊢
    by_cases hkids : ((List.range boardSize).filterMap (fun i =>
        match applyMove i (my_opponent n.self) n.state with
        | some temp => some (Node.mk 0 0 true false temp (my_opponent n.self) i [])
        | none => none)).isEmpty
    · rw [if_pos hkids] at hdesc
      exact Bool.noConfusion hdesc
    · rw [if_neg hkids] at hdesc ⊢
      rw [childrens_set_expanded]
      have hne : ((List.range boardSize).filterMap (fun i =>
          match applyMove i (my_opponent n.self) n.state with
          | some temp => some (Node.mk 0 0 true false temp (my_opponent n.self) i [])
          | none => none)).length ≠ 0 := by
        intro hcon
        rw [List.isEmpty_iff] at hkids
        exact hkids (List.length_eq_zero.1 hcon)
      have hpos : 0 < (shuffle ((List.range boardSize).filterMap (fun i =>
          match applyMove i (my_opponent n.self) n.state with
          | some temp => some (Node.mk 0 0 true false temp (my_opponent n.self) i [])
          | none => none))).length := by
        rw [hlen]
        omega
      cases hget : (shuffle ((List.range boardSize).filterMap (fun i =>
          match applyMove i (my_opponent n.self) n.state with
          | some temp => some (Node.mk 0 0 true false temp (my_opponent n.self) i [])
          | none => none))).get? 0 with
      | none =>
        rw [List.get?_eq_none] at hget
        omega
      | some c0 => exact ⟨c0, rfl⟩

/-- The root node is untouched by a child replacement along a nonempty path,
and replaced by the (counter-preserving) expansion result along the empty
path; in both cases its visit counter is unchanged. -/
theorem replace_at_root_si {B : Type} (e : Node B) (p : List ℕ) (t : Node B)
    (he : e.si = t.si) : (replace_at e p t).si = t.si := by
  cases p with
  | nil => rw [replace_at]; exact he
  | cons i p =>
    rw [replace_at]
    cases hget : t.childrens.get? i with
    | none => rfl
    | some c => rw [si_replace_childrens]

/-- One full search iteration preserves the counter invariant on every node
of the tree. -/
theorem all_nodes_search_step {B : Type} (applyMove : ℕ → Piece → B → Option B)
    (boardSize : ℕ) (shuffle : List (Node B) → List (Node B)) (empties : B → ℕ)
    (who opponent : Piece) (c : ℝ) (my_space op_space : List ℕ)
    (hshuffle : ∀ (l : List (Node B)), ∀ x ∈ shuffle l, x ∈ l) (t : Node B)
    (h : all_nodes (fun n => 0 ≤ n.wi ∧ n.wi ≤ n.si) t) :
    all_nodes (fun n => 0 ≤ n.wi ∧ n.wi ≤ n.si)
      (search_step applyMove boardSize shuffle empties who opponent c
        my_space op_space t) := by
  rw [search_step]
  cases h1 : node_at (selection_path who c t) t with
  | none => exact h
  | some best_leaf =>
    simp only []
    have hleaf := node_at_all_nodes _ _ t best_leaf h1 h
    have hexp := all_nodes_expand applyMove boardSize shuffle hshuffle best_leaf hleaf
    have ht1 := all_nodes_replace_at (selection_path who c t) t
      (expand applyMove boardSize shuffle best_leaf).1 h hexp
    cases h2 : node_at
        (if (expand applyMove boardSize shuffle best_leaf).2 = true
          then selection_path who c t ++ [0] else selection_path who c t)
        (replace_at (expand applyMove boardSize shuffle best_leaf).1
          (selection_path who c t) t) with
    | none => exact ht1
    | some new_leaf =>
      simp only []
      rcases rollout_score_cases applyMove who opponent my_space op_space
          (empties new_leaf.state + 1) new_leaf with hs | hs
      · rw [hs]
        exact all_nodes_backprop 0 (le_refl 0) (by norm_num) _ _ ht1
      · rw [hs]
        exact all_nodes_backprop 1 (by norm_num) (le_refl 1) _ _ ht1

/-- One full search iteration bumps the root's visit counter by exactly 1:
the selection path exists in the tree, expansion replaces the selected leaf
without touching counters, and backpropogation always reaches the root. -/
theorem search_step_root_si {B : Type} (applyMove : ℕ → Piece → B → Option B)
    (boardSize : ℕ) (shuffle : List (Node B) → List (Node B)) (empties : B → ℕ)
    (who opponent : Piece) (c : ℝ) (my_space op_space : List ℕ)
    (hlen : ∀ l : List (Node B), (shuffle l).length = l.length) (t : Node B) :
    (search_step applyMove boardSize shuffle empties who opponent c
      my_space op_space t).si = t.si + 1 := by
  obtain ⟨best_leaf, h1⟩ := node_at_selection_path who c t
  rw [search_step]
  rw [h1]
  simp only []
  have ht1si : (replace_at (expand applyMove boardSize shuffle best_leaf).1
      (selection_path who c t) t).si = t.si := by
    cases hp : selection_path who c t with
    | nil =>
      have hbt : best_leaf = t := by
        rw [hp, node_at] at h1
        exact (Option.some.inj h1).symm
      rw [replace_at, expand_si, hbt]
    | cons i p2 =>
      rw [replace_at]
      cases hget : t.childrens.get? i with
      | none => rfl
      | some c2 => rw [si_replace_childrens]
  have hsome : ∃ new_leaf, node_at
      (if (expand applyMove boardSize shuffle best_leaf).2
        then selection_path who c t ++ [0] else selection_path who c t)
      (replace_at (expand applyMove boardSize shuffle best_leaf).1
        (selection_path who c t) t) = some new_leaf := by
    have hbase := node_at_replace_at (expand applyMove boardSize shuffle best_leaf).1
      (selection_path who c t) t best_leaf h1
    cases hdesc : (expand applyMove boardSize shuffle best_leaf).2 with
    | false =>
      rw [if_neg Bool.false_ne_true]
      exact ⟨_, hbase⟩
    | true =>
      rw [if_pos rfl]
      rw [node_at_append, hbase]
      obtain ⟨c0, hc0⟩ := expand_front_child applyMove boardSize shuffle hlen best_leaf hdesc
      refine ⟨c0, ?_⟩
      show node_at [0] (expand applyMove boardSize shuffle best_leaf).1 = some c0
      rw [node_at, hc0]
      rfl
  obtain ⟨new_leaf, hnl⟩ := hsome
  rw [hnl]
  rw [backprop_root_si, ht1si]

/-- C4: backpropagate(leaf, score) adds score to the win counter and exactly
1 to the visit counter of every node on the parent chain from the leaf to the
root (no per-ply sign flip), so the visit total along the chain grows by the
chain length; a node's counters, evolving from the initializers (0, 0) under
backpropogation visits with scores in {0,1}, always satisfy win <= visit and
record one visit per received backpropogation (zero visits = never
backpropagated into); and over a whole search, every node of the tree
satisfies 0 <= wi <= si after any number of iterations while the root's
visit count equals the number of completed iterations (= rollouts). -/
theorem c4_backpropogation_invariants {B : Type} :
    (∀ (score : ℤ) (p : List ℕ) (t : Node B),
      counters_along p (backpropogation score p t)
        = (counters_along p t).map (fun ws => (ws.1 + score, ws.2 + 1))) ∧
    (∀ (score : ℤ) (p : List ℕ) (t : Node B),
      ((counters_along p (backpropogation score p t)).map Prod.snd).sum
        = ((counters_along p t).map Prod.snd).sum + (counters_along p t).length) ∧
    (∀ scores : List ℤ, (∀ s ∈ scores, 0 ≤ s ∧ s ≤ 1) →
      0 ≤ (counter_updates scores).1 ∧
      (counter_updates scores).1 ≤ (counter_updates scores).2) ∧
    (∀ scores : List ℤ, (counter_updates scores).2 = (scores.length : ℤ) ∧
      ((counter_updates scores).2 = 0 → scores = [])) ∧
    (∀ (applyMove : ℕ → Piece → B → Option B) (boardSize : ℕ)
        (shuffle : List (Node B) → List (Node B)) (empties : B → ℕ)
        (who opponent : Piece) (c : ℝ) (my_space op_space : List ℕ)
        (state : B) (mv : ℕ) (N : ℕ),
      (∀ l : List (Node B), List.Perm (shuffle l) l) →
      all_nodes (fun n => 0 ≤ n.wi ∧ n.wi ≤ n.si)
        ((search_step applyMove boardSize shuffle empties who opponent c
          my_space op_space)^[N] (Node.mk 0 0 true false state opponent mv [])) ∧
      ((search_step applyMove boardSize shuffle empties who opponent c
        my_space op_space)^[N] (Node.mk 0 0 true false state opponent mv [])).si = N) := by
  refine ⟨counters_backprop, ?_, ?_, ?_, ?_⟩
  · intro score p t
    rw [counters_backprop score p t]
    exact sum_snd_map_bump score (counters_along p t)
  · intro scores hsc
    rw [counter_updates_char]
    have := scores_sum_bounds scores hsc
    exact ⟨this.1, by simpa using this.2⟩
  · intro scores
    rw [counter_updates_char]
    refine ⟨rfl, ?_⟩
    intro hz
    have hcast : (scores.length : ℤ) = 0 := hz
    have : scores.length = 0 := by exact_mod_cast hcast
    exact List.length_eq_zero.1 this
  · intro applyMove boardSize shuffle empties who opponent c my_space op_space
      state mv N hshuffle
    have hmem : ∀ (l : List (Node B)), ∀ x ∈ shuffle l, x ∈ l := by
      intro l x hx
      exact (hshuffle l).mem_iff.1 hx
    have hlen : ∀ l : List (Node B), (shuffle l).length = l.length := by
      intro l
      exact (hshuffle l).length_eq
    induction N with
    | zero =>
      constructor
      · refine (all_nodes_iff _ _).2 ⟨⟨le_refl 0, le_refl 0⟩, ?_⟩
        intro c2 hc2
        rw [Function.iterate_zero_apply] at hc2
        simp only [Node.childrens] at hc2
        exact absurd hc2 (List.not_mem_nil c2)
      · rfl
    | succ N ih =>
      rw [Function.iterate_succ_apply']
      constructor
      · exact all_nodes_search_step applyMove boardSize shuffle empties who opponent c
          my_space op_space hmem _ ih.1
      · rw [search_step_root_si applyMove boardSize shuffle empties who opponent c
          my_space op_space hlen, ih.2]
        push_cast
        ring

/-- Witness for C4: the score list [1] keeps win <= visit, and one iteration
of the search loop on the trivial no-move game leaves the invariant intact
with root visit count 1. -/
theorem c4_backpropogation_invariants_witness :
    ((∀ s ∈ ([1] : List ℤ), 0 ≤ s ∧ s ≤ 1) ∧
      0 ≤ (counter_updates [1]).1 ∧ (counter_updates [1]).1 ≤ (counter_updates [1]).2) ∧
    ((∀ l : List (Node Unit), List.Perm ((fun l => l) l) l) ∧
      (all_nodes (fun n => 0 ≤ n.wi ∧ n.wi ≤ n.si)
        ((search_step (fun (_ : ℕ) (_ : Piece) (_ : Unit) => (none : Option Unit)) 0
          (fun l => l) (fun _ => 0) Piece.black Piece.white 0.8 [] [])^[1]
          (Node.mk 0 0 true false () Piece.white 0 [])) ∧
       ((search_step (fun (_ : ℕ) (_ : Piece) (_ : Unit) => (none : Option Unit)) 0
          (fun l => l) (fun _ => 0) Piece.black Piece.white 0.8 [] [])^[1]
          (Node.mk 0 0 true false () Piece.white 0 [])).si = (1 : ℕ))) := by
  have hsc : ∀ s ∈ ([1] : List ℤ), 0 ≤ s ∧ s ≤ 1 := by
    intro s hs
    simp only [List.mem_singleton] at hs
    subst hs
    exact ⟨by norm_num, le_refl 1⟩
  have hperm : ∀ l : List (Node Unit), List.Perm ((fun l => l) l) l :=
    fun l => List.Perm.refl l
  exact ⟨⟨hsc, (c4_backpropogation_invariants (B := Unit)).2.2.1 [1] hsc⟩,
    ⟨hperm, (c4_backpropogation_invariants (B := Unit)).2.2.2.2
      (fun _ _ _ => none) 0 (fun l => l) (fun _ => 0) Piece.black Piece.white 0.8 [] []
      () 0 1 hperm⟩⟩

/-- Characterization of the final scan of mcts_player::take_action over any
children list: either no child strictly beats the incoming (bestcount,
best_move) pair - returned unchanged - or the result records the first child
attaining the maximal visit count among those beating the incoming pair. -/
theorem choose_fold_char {B : Type} [Inhabited B] :
    ∀ (l : List (Node B)) (acc : ℤ × Option ℕ),
      (l.foldl (fun (acc : ℤ × Option ℕ) ch =>
          if ch.si > acc.1 then (ch.si, some ch.move_placed) else acc) acc = acc ∧
        ∀ ch ∈ l, ch.si ≤ acc.1)
      ∨ (∃ k < l.length,
          l.foldl (fun (acc : ℤ × Option ℕ) ch =>
            if ch.si > acc.1 then (ch.si, some ch.move_placed) else acc) acc
            = ((l.getD k default).si, some (l.getD k default).move_placed) ∧
          acc.1 < (l.getD k default).si ∧
          (∀ j < l.length, (l.getD j default).si ≤ (l.getD k default).si) ∧
          (∀ j < k, (l.getD j default).si < (l.getD k default).si)) := by
  intro l
  induction l with
  | nil => intro acc; exact Or.inl ⟨rfl, by simp⟩
  | cons a l ih =>
    intro acc
    rw [List.foldl_cons]
    by_cases hgt : a.si > acc.1
    · rw [if_pos hgt]
      rcases ih (a.si, some a.move_placed) with ⟨heq, hall⟩ | ⟨k, hk, heq, hgt2, hall, hstrict⟩
      · refine Or.inr ⟨0, by simp, by simpa using heq, by simpa using hgt, ?_, by omega⟩
        intro j hj
        cases j with
        | zero => simp
        | succ j =>
          simp only [List.getD_cons_succ, List.getD_cons_zero]
          have hjl : j < l.length := by simpa using hj
          have hmem : l.getD j default ∈ l := by
            rw [List.getD_eq_getElem l default hjl]
            exact List.getElem_mem hjl
          exact hall _ hmem
      · refine Or.inr ⟨k + 1, by simpa using hk, by simpa using heq,
          by simpa using lt_trans hgt hgt2, ?_, ?_⟩
        · intro j hj
          cases j with
          | zero =>
            simp only [List.getD_cons_succ, List.getD_cons_zero]
            exact le_of_lt hgt2
          | succ j =>
            simp only [List.getD_cons_succ]
            exact hall j (by simpa using hj)
        · intro j hj
          cases j with
          | zero =>
            simp only [List.getD_cons_succ, List.getD_cons_zero]
            exact hgt2
          | succ j =>
            simp only [List.getD_cons_succ]
            exact hstrict j (by omega)
    · rw [if_neg hgt]
      rcases ih acc with ⟨heq, hall⟩ | ⟨k, hk, heq, hgt2, hall, hstrict⟩
      · refine Or.inl ⟨heq, ?_⟩
        intro ch hch
        rcases List.mem_cons.1 hch with h | h
        · subst h; exact le_of_not_lt hgt
        · exact hall ch h
      · refine Or.inr ⟨k + 1, by simpa using hk, by simpa using heq,
          by simpa using hgt2, ?_, ?_⟩
        · intro j hj
          cases j with
          | zero =>
            simp only [List.getD_cons_succ, List.getD_cons_zero]
            exact le_trans (le_of_not_lt hgt) (le_of_lt hgt2)
          | succ j =>
            simp only [List.getD_cons_succ]
            exact hall j (by simpa using hj)
        · intro j hj
          cases j with
          | zero =>
            simp only [List.getD_cons_succ, List.getD_cons_zero]
            exact lt_of_le_of_lt (le_of_not_lt hgt) hgt2
          | succ j =>
            simp only [List.getD_cons_succ]
            exact hstrict j (by omega)

/-- A search iteration on a stuck root - no legal placement for the agent at
the root position - leaves the root a childless leaf with the same board and
self: expansion finds no child (and only flips the terminal flag), the
rollout resolves on the terminal node, and backpropogation merely bumps the
root counters. -/
theorem search_step_stuck {B : Type} (applyMove : ℕ → Piece → B → Option B)
    (boardSize : ℕ) (shuffle : List (Node B) → List (Node B)) (empties : B → ℕ)
    (who opponent : Piece) (c : ℝ) (my_space op_space : List ℕ) (state : B)
    (hwho : (who = Piece.black ∧ opponent = Piece.white) ∨
      (who = Piece.white ∧ opponent = Piece.black))
    (hnl : ∀ i, applyMove i who state = none) (t : Node B)
    (hch : t.childrens = []) (hlf : t.isleaf = true) (hst : t.state = state)
    (hse : t.self = opponent) :
    (search_step applyMove boardSize shuffle empties who opponent c
        my_space op_space t).childrens = [] ∧
    (search_step applyMove boardSize shuffle empties who opponent c
        my_space op_space t).isleaf = true ∧
    (search_step applyMove boardSize shuffle empties who opponent c
        my_space op_space t).state = state ∧
    (search_step applyMove boardSize shuffle empties who opponent c
        my_space op_space t).self = opponent := by
  have hop : my_opponent t.self = who := by
    rw [hse]
    rcases hwho with ⟨h1, h2⟩ | ⟨h1, h2⟩ <;> subst h1 <;> subst h2 <;> rfl
  have hpath : selection_path who c t = [] := by
    cases t with
    | mk wi si isleaf ist st2 se mv ch =>
      simp only [Node.isleaf] at hlf
      rw [selection_path, if_pos hlf]
  have hkids : (List.range boardSize).filterMap (fun i =>
      match applyMove i (my_opponent t.self) t.state with
      | some temp => some (Node.mk 0 0 true false temp (my_opponent t.self) i [])
      | none => none) = [] := by
    rw [List.filterMap_eq_nil]
    intro i _
    rw [hop, hst, hnl i]
  have hexp : expand applyMove boardSize shuffle t
      = (if t.is_terminal = true then t else t.mark_terminal, false) := by
    rw [expand]
    by_cases ht : t.is_terminal
    · rw [if_pos ht, if_pos ht]
    · rw [if_neg ht, if_neg ht]
      simp only []
      rw [hkids]
      rfl
  have he1 : (expand applyMove boardSize shuffle t).1.childrens = [] := by
    rw [hexp]
    by_cases ht : t.is_terminal = true
    · rw [if_pos ht]; exact hch
    · rw [if_neg ht, childrens_mark]; exact hch
  have he2 : (expand applyMove boardSize shuffle t).1.isleaf = true := by
    rw [hexp]
    by_cases ht : t.is_terminal = true
    · rw [if_pos ht]; exact hlf
    · rw [if_neg ht, isleaf_mark]; exact hlf
  have he3 : (expand applyMove boardSize shuffle t).1.state = state := by
    rw [hexp]
    by_cases ht : t.is_terminal = true
    · rw [if_pos ht]; exact hst
    · rw [if_neg ht, state_mark]; exact hst
  have he4 : (expand applyMove boardSize shuffle t).1.self = opponent := by
    rw [hexp]
    by_cases ht : t.is_terminal = true
    · rw [if_pos ht]; exact hse
    · rw [if_neg ht, self_mark]; exact hse
  have hdesc : (expand applyMove boardSize shuffle t).2 = false := by
    rw [hexp]
  rw [search_step, hpath]
  simp only [node_at]
  rw [hdesc]
  simp only [Bool.false_eq_true, if_false]
  simp only [node_at]
  rw [show replace_at (expand applyMove boardSize shuffle t).1 [] t
      = (expand applyMove boardSize shuffle t).1 from rfl]
  rw [backpropogation]
  exact ⟨by rw [childrens_bump]; exact he1, by rw [isleaf_bump]; exact he2,
    by rw [state_bump]; exact he3, by rw [self_bump]; exact he4⟩

/-- C5: after the search loop (the ~1-second wall clock checked every 500
iterations is modelled by the iteration count N), take_action returns the
move of the root's most-visited immediate child, ties on visit count broken
by enumeration order (the first child found with the maximum); and when the
root position has no legal placement for the agent, the root never gains a
child, every iteration is a trivial terminal rollout, and take_action
returns the null action (none). -/
theorem c5_take_action_most_visited {B : Type} [Inhabited B] :
    (∀ (childrens : List (Node B)), (∀ ch ∈ childrens, 0 ≤ ch.si) → childrens ≠ [] →
      ∃ k, k < childrens.length ∧
        choose_move childrens = some ((childrens.getD k default).move_placed) ∧
        (∀ j, j < childrens.length →
          (childrens.getD j default).si ≤ (childrens.getD k default).si) ∧
        (∀ j, j < k →
          (childrens.getD j default).si < (childrens.getD k default).si)) ∧
    (∀ (applyMove : ℕ → Piece → B → Option B) (boardSize : ℕ)
        (shuffle : List (Node B) → List (Node B)) (empties : B → ℕ)
        (who opponent : Piece) (c : ℝ) (my_space op_space : List ℕ)
        (state : B) (N : ℕ),
      ((who = Piece.black ∧ opponent = Piece.white) ∨
        (who = Piece.white ∧ opponent = Piece.black)) →
      (∀ i, applyMove i who state = none) →
      ((search_step applyMove boardSize shuffle empties who opponent c
          my_space op_space)^[N] (Node.mk 0 0 true false state opponent 0 [])).childrens
        = [] ∧
      mcts_take_action applyMove boardSize shuffle empties who opponent c
        my_space op_space N state = none) := by
  constructor
  · intro childrens h0 hne
    rcases choose_fold_char childrens (-1, none) with ⟨_, hall⟩ | ⟨k, hk, heq, _, hall, hstrict⟩
    · exfalso
      cases childrens with
      | nil => exact hne rfl
      | cons a l =>
        have h1 := hall a (by simp)
        have h2 := h0 a (by simp)
        omega
    · refine ⟨k, hk, ?_, hall, hstrict⟩
      rw [choose_move, heq]
  · intro applyMove boardSize shuffle empties who opponent c my_space op_space state N
      hwho hnl
    have hfinal : ∀ M : ℕ,
        ((search_step applyMove boardSize shuffle empties who opponent c
          my_space op_space)^[M] (Node.mk 0 0 true false state opponent 0 [])).childrens = [] ∧
        ((search_step applyMove boardSize shuffle empties who opponent c
          my_space op_space)^[M] (Node.mk 0 0 true false state opponent 0 [])).isleaf = true ∧
        ((search_step applyMove boardSize shuffle empties who opponent c
          my_space op_space)^[M] (Node.mk 0 0 true false state opponent 0 [])).state = state ∧
        ((search_step applyMove boardSize shuffle empties who opponent c
          my_space op_space)^[M] (Node.mk 0 0 true false state opponent 0 [])).self = opponent := by
      intro M
      induction M with
      | zero => exact ⟨rfl, rfl, rfl, rfl⟩
      | succ M ih =>
        rw [Function.iterate_succ_apply']
        exact search_step_stuck applyMove boardSize shuffle empties who opponent c
          my_space op_space state hwho hnl _ ih.1 ih.2.1 ih.2.2.1 ih.2.2.2
    refine ⟨(hfinal N).1, ?_⟩
    rw [mcts_take_action]
    rw [(hfinal N).1]
    rfl

/-- Witness for C5: a single root child with 3 visits and move 7 is chosen,
and on the trivial no-move game one iteration returns the null action. -/
theorem c5_take_action_most_visited_witness :
    ((∀ ch ∈ [Node.mk (B := Unit) 0 3 true false () Piece.black 7 []], 0 ≤ ch.si) ∧
      ([Node.mk (B := Unit) 0 3 true false () Piece.black 7 []] ≠ []) ∧
      (∃ k, k < ([Node.mk (B := Unit) 0 3 true false () Piece.black 7 []]).length ∧
        choose_move [Node.mk (B := Unit) 0 3 true false () Piece.black 7 []]
          = some ((([Node.mk (B := Unit) 0 3 true false () Piece.black 7 []]).getD k
              default).move_placed) ∧
        (∀ j, j < ([Node.mk (B := Unit) 0 3 true false () Piece.black 7 []]).length →
          (([Node.mk (B := Unit) 0 3 true false () Piece.black 7 []]).getD j default).si
            ≤ (([Node.mk (B := Unit) 0 3 true false () Piece.black 7 []]).getD k default).si) ∧
        (∀ j, j < k →
          (([Node.mk (B := Unit) 0 3 true false () Piece.black 7 []]).getD j default).si
            < (([Node.mk (B := Unit) 0 3 true false () Piece.black 7 []]).getD k default).si))) ∧
    ((∀ i, (fun (_ : ℕ) (_ : Piece) (_ : Unit) => (none : Option Unit)) i Piece.black () = none) ∧
      mcts_take_action (fun (_ : ℕ) (_ : Piece) (_ : Unit) => (none : Option Unit)) 0
        (fun l => l) (fun _ => 0) Piece.black Piece.white 0.8 [] [] 1 () = none) := by
  have h0 : ∀ ch ∈ [Node.mk (B := Unit) 0 3 true false () Piece.black 7 []], 0 ≤ ch.si := by
    intro ch hch
    simp only [List.mem_singleton] at hch
    subst hch
    simp [Node.si]
  have hne : [Node.mk (B := Unit) 0 3 true false () Piece.black 7 []] ≠ [] := by
    exact List.cons_ne_nil _ _
  have hwho : (Piece.black = Piece.black ∧ Piece.white = Piece.white) ∨
      (Piece.black = Piece.white ∧ Piece.white = Piece.black) := Or.inl ⟨rfl, rfl⟩
  have hnl : ∀ i, (fun (_ : ℕ) (_ : Piece) (_ : Unit) => (none : Option Unit)) i Piece.black ()
      = none := fun _ => rfl
  exact ⟨⟨h0, hne, (c5_take_action_most_visited (B := Unit)).1 _ h0 hne⟩,
    ⟨hnl, ((c5_take_action_most_visited (B := Unit)).2 (fun _ _ _ => none) 0
      (fun l => l) (fun _ => 0) Piece.black Piece.white 0.8 [] [] () 1 hwho hnl).2⟩⟩

end TCG
